import Mathlib

/-!
Verification development for the team-crossword repository.

The program is embedded shallowly: byte buffers are `List Nat` (one entry
per byte), JS strings are `List Nat` (one entry per UTF-16 code unit, which
for the latin-1 decoded strings of this program coincides with the byte),
`undefined`-able lookups use `Option`, and the stateful React handlers
become explicit state-passing functions over a record of the component's
state arrays.
-/

namespace TeamCrossword

/-- `String.prototype.toUpperCase` restricted to single code units in the
latin-1 range, which is all this program ever produces
(`String.fromCharCode(byte)`): ASCII `a`-`z` and latin-1 letters map down
by 32, `ß` (0xDF) uppercases to `SS`, `µ` (0xB5) to `Μ` (0x39C),
`ÿ` (0xFF) to `Ÿ` (0x178); `÷` (0xF7) and everything else is unchanged. -/
def jsUpperChar (c : Nat) : List Nat :=
  if 97 ≤ c ∧ c ≤ 122 then [c - 32]
  else if c = 0xDF then [83, 83]
  else if c = 0xB5 then [0x39C]
  else if c = 0xFF then [0x178]
  else if 0xE0 ≤ c ∧ c ≤ 0xFE ∧ c ≠ 0xF7 then [c - 32]
  else [c]

/-- `toUpperCase` on a whole JS string. -/
def jsUpperStr (s : List Nat) : List Nat := s.flatMap jsUpperChar

/-- The two cursor directions of the crossword UI. -/
inductive Mode | across | down
deriving DecidableEq

/-- Per-cell check status (the `status` state array). -/
inductive CStatus | unchecked | correct | incorrect
deriving DecidableEq

/-- The four clue-order policies of `parsePuz`. -/
inductive ClueOrder | acrossDown | downAcross | interleavedAD | interleavedDA
deriving DecidableEq

/-- A grid cell as built by `parsePuz` (`solution` is the uppercased
solution string, `[46]` i.e. "." for a block). -/
structure Cell where
  row : Nat
  col : Nat
  index : Nat
  isBlock : Bool
  solution : List Nat
deriving DecidableEq

/-- A `ClueEntry`: its number, clue text, and the indices of its cells in
traversal order.  The source stores the `Cell` records themselves; since
the record stored for position `i` is exactly `grid[i]`, the index is a
faithful identity for it (`grid[i].index == i` by construction). -/
structure Entry where
  number : Nat
  clue : List Nat
  cells : List Nat
deriving DecidableEq

/-- The errors `parsePuz` can throw: the three `Invalid .puz` messages,
plus the `RangeError` that a `DataView` access past the end of the buffer
raises before any explicit validation runs. -/
inductive PuzError | rangeError | missingDimensions | truncatedGrid | unterminatedString
deriving DecidableEq

/-! ## GridModel: entry starts, numbering, runs

These mirror the single row-major scan of `parsePuz` (the variant with
clue-order policies): for each non-block index `i` (row `i / w`, column
`i % w`), `sa`/`sd` decide whether an across/down entry starts there, every
start position gets the next sequential number, and the cells of an entry
are collected by walking right/down until a block or the grid edge.
`blk` is total; `parsePuz` instantiates it so that out-of-range reads
never occur (all loops stay inside the grid, as in the source). -/

/-- `startsAcross` for the cell at index `i`: `c == 0 || isBlockAt(r, c-1)`
(the left neighbour is `i - 1`, always in range when `c ≠ 0`). -/
def saB (w : Nat) (blk : Nat → Bool) (i : Nat) : Bool :=
  (i % w == 0) || blk (i - 1)

/-- `startsDown` for the cell at index `i`: `r == 0 || isBlockAt(r-1, c)`
(the upper neighbour is `i - w`, always in range when `r ≠ 0`). -/
def sdB (w : Nat) (blk : Nat → Bool) (i : Nat) : Bool :=
  (decide (i < w)) || blk (i - w)

/-- The entry-start positions in row-major scan order: the non-block
indices that start an across entry, a down entry, or both. -/
def startsRaw (w h : Nat) (blk : Nat → Bool) : List Nat :=
  (List.range (w * h)).filter (fun i => !blk i && (saB w blk i || sdB w blk i))

/-- The cell-collecting while loop, with an explicit fuel counting the
remaining positions to the row/column edge and an explicit stride
(1 for across, `w` for down). -/
def runGo (blk : Nat → Bool) (stride : Nat) : Nat → Nat → List Nat
  | 0, _ => []
  | f + 1, j => if blk j then [] else j :: runGo blk stride f (j + stride)

/-- Cells of the across entry starting at index `i`:
walk `cc = c, c+1, …` while `cc < width && !isBlockAt(r, cc)`. -/
def runA (w : Nat) (blk : Nat → Bool) (i : Nat) : List Nat :=
  runGo blk 1 (w - i % w) i

/-- Cells of the down entry starting at index `i`:
walk `rr = r, r+1, …` while `rr < height && !isBlockAt(rr, c)`. -/
def runD (w h : Nat) (blk : Nat → Bool) (i : Nat) : List Nat :=
  runGo blk w (h - i / w) i

/-- The across entry list in scan order: the `k`-th start position (if it
starts an across entry) contributes an entry numbered `k + 1` with an
empty clue, exactly like the source's `nextNum++` / `across.push`. -/
def acrossEntries (w h : Nat) (blk : Nat → Bool) : List Entry :=
  (startsRaw w h blk).enum.filterMap
    (fun p => if saB w blk p.2 then some ⟨p.1 + 1, [], runA w blk p.2⟩ else none)

/-- The down entry list in scan order, sharing the numbering scan. -/
def downEntries (w h : Nat) (blk : Nat → Bool) : List Entry :=
  (startsRaw w h blk).enum.filterMap
    (fun p => if sdB w blk p.2 then some ⟨p.1 + 1, [], runD w h blk p.2⟩ else none)

/-! ## Clue assignment -/

/-- The source's `take()`:
`clueIdx < cluesRaw.length ? cluesRaw[clueIdx++] : ""`; assignment slot
`k` therefore reads `cluesRaw[k]` when it exists and `""` otherwise. -/
def takeClue (clues : List (List Nat)) (k : Nat) : List Nat :=
  clues.getD k []

/-- Sequentially assign `take()` results to a list of entries, the shared
`clueIdx` starting at `k` (the `for` loops of the `across-down` and
`down-across` policies). -/
def assignSeq (clues : List (List Nat)) : Nat → List Entry → List Entry
  | _, [] => []
  | k, e :: es => { e with clue := takeClue clues k } :: assignSeq clues (k + 1) es

/-- Mutable state of the interleaved assignment loop: the shared
`clueIdx`, the running across/down entry counters (`s.acrossIndex` /
`s.downIndex` of the source), and the two entry arrays being updated. -/
structure AssignState where
  ci : Nat
  ai : Nat
  di : Nat
  across : List Entry
  down : List Entry
deriving DecidableEq

/-- `across[s.acrossIndex].clue = take()`. -/
def stepA (clues : List (List Nat)) (st : AssignState) : AssignState :=
  { st with
    across := st.across.modify (fun e => { e with clue := takeClue clues st.ci }) st.ai,
    ci := st.ci + 1, ai := st.ai + 1 }

/-- `down[s.downIndex].clue = take()`. -/
def stepD (clues : List (List Nat)) (st : AssignState) : AssignState :=
  { st with
    down := st.down.modify (fun e => { e with clue := takeClue clues st.ci }) st.di,
    ci := st.ci + 1, di := st.di + 1 }

/-- One iteration of `for (const s of starts)` under an interleaved
policy: consume for across then down (`interleaved-ad`) or down then
across (`interleaved-da`), guarded by the start's flags. -/
def interleaveStep (adFirst : Bool) (clues : List (List Nat))
    (st : AssignState) (flags : Bool × Bool) : AssignState :=
  if adFirst then
    let st1 := if flags.1 then stepA clues st else st
    if flags.2 then stepD clues st1 else st1
  else
    let st1 := if flags.2 then stepD clues st else st
    if flags.1 then stepA clues st1 else st1

/-- The `(startsAcross, startsDown)` flags of each start, in scan order. -/
def startFlags (w h : Nat) (blk : Nat → Bool) : List (Bool × Bool) :=
  (startsRaw w h blk).map (fun i => (saB w blk i, sdB w blk i))

/-- Clue-to-entry assignment under the four ordering policies. -/
def assignClues (order : ClueOrder) (w h : Nat) (blk : Nat → Bool)
    (clues : List (List Nat)) (across down : List Entry) : List Entry × List Entry :=
  match order with
  | .acrossDown => (assignSeq clues 0 across, assignSeq clues across.length down)
  | .downAcross => (assignSeq clues down.length across, assignSeq clues 0 down)
  | .interleavedAD =>
      let st := (startFlags w h blk).foldl (interleaveStep true clues) ⟨0, 0, 0, across, down⟩
      (st.across, st.down)
  | .interleavedDA =>
      let st := (startFlags w h blk).foldl (interleaveStep false clues) ⟨0, 0, 0, across, down⟩
      (st.across, st.down)

/-! ## PuzDecoder (`parsePuz`) -/

/-- `DataView.getUint8`: throws a `RangeError` outside the buffer. -/
def getU8 (bytes : List Nat) (o : Nat) : Except PuzError Nat :=
  if o < bytes.length then .ok (bytes.getD o 0) else .error .rangeError

/-- `DataView.getUint16(o, true)` (little-endian). -/
def getU16LE (bytes : List Nat) (o : Nat) : Except PuzError Nat :=
  if o + 1 < bytes.length then .ok (bytes.getD o 0 + 256 * bytes.getD (o + 1) 0)
  else .error .rangeError

/-- `readNullTerminated`: scan from `cursor` while `bytes[cursor] !== 0`;
hitting the end of the buffer is `Invalid .puz: unterminated string`;
otherwise return the scanned slice and the cursor past the NUL. -/
def readNT (bytes : List Nat) (cursor : Nat) : Except PuzError (List Nat × Nat) :=
  if bytes.length ≤ cursor + ((bytes.drop cursor).takeWhile (fun b => b != 0)).length
  then .error .unterminatedString
  else .ok ((bytes.drop cursor).takeWhile (fun b => b != 0),
            cursor + ((bytes.drop cursor).takeWhile (fun b => b != 0)).length + 1)

/-- The clue-reading loop: `numClues` consecutive NUL-terminated strings. -/
def readStrs (bytes : List Nat) : Nat → Nat → Except PuzError (List (List Nat) × Nat)
  | 0, cursor => .ok ([], cursor)
  | n + 1, cursor => do
      let p ← readNT bytes cursor
      let q ← readStrs bytes n p.2
      .ok (p.1 :: q.1, q.2)

/-- Placeholder cell; `parsePuz` and the scans only ever read in-range
grid positions, exactly as the source's bounds-guarded `isBlockAt`. -/
def dummyCell : Cell := ⟨0, 0, 0, true, [46]⟩

/-- The `grid` building loop: one `Cell` per index, `.` marking blocks,
other bytes uppercased. -/
def mkGrid (width gridSize : Nat) (solBytes : List Nat) : List Cell :=
  (List.range gridSize).map (fun i =>
    let ch := solBytes.getD i 0
    let isB := ch == 46
    ⟨i / width, i % width, i, isB, if isB then [46] else jsUpperChar ch⟩)

/-- The decoder's output (the newer `parsePuz` variant, with clue-order
policies). -/
structure ParsedPuz where
  width : Nat
  height : Nat
  title : List Nat
  author : List Nat
  copyright : List Nat
  grid : List Cell
  cluesRaw : List (List Nat)
  across : List Entry
  down : List Entry
  clueOrder : ClueOrder
deriving DecidableEq

/-- `parsePuz`.  The caller resolves the clue-order option (the source
defaults a missing option to `interleaved-ad`), so `order` is passed
directly.  Reads of the width/height/clue-count header bytes happen
before any validation, so a buffer shorter than 0x30 bytes fails with
`rangeError` rather than one of the three format errors. -/
def parsePuz (bytes : List Nat) (order : ClueOrder) : Except PuzError ParsedPuz := do
  let width ← getU8 bytes 0x2C
  let height ← getU8 bytes 0x2D
  let numClues ← getU16LE bytes 0x2E
  if width == 0 || height == 0 then throw .missingDimensions
  let gridSize := width * height
  if bytes.length < 0x34 + 2 * gridSize then throw .truncatedGrid
  let solBytes := (bytes.drop 0x34).take gridSize
  let t ← readNT bytes (0x34 + 2 * gridSize)
  let a ← readNT bytes t.2
  let c ← readNT bytes a.2
  let cl ← readStrs bytes numClues c.2
  let grid := mkGrid width gridSize solBytes
  let blk := fun i => (grid.getD i dummyCell).isBlock
  let across0 := acrossEntries width height blk
  let down0 := downEntries width height blk
  let ad := assignClues order width height blk cl.1 across0 down0
  return ⟨width, height, t.1, a.1, c.1, grid, cl.1, ad.1, ad.2, order⟩

/-! ## Component state and input handlers -/

/-- The per-session state of the `Crossword` component that the input
handlers read and write: grid geometry, the block map (from the parsed
grid), and the parallel `cells` / `status` / `owners` arrays, plus the
navigation state (`mode`, `activeIndex`). -/
structure PState where
  width : Nat
  height : Nat
  blocks : List Bool
  cells : List (List Nat)
  status : List CStatus
  owners : List (Option Nat)
  mode : Mode
  active : Option Nat
deriving DecidableEq

/-- `puz.grid[i].isBlock` (out-of-range reads do not occur in the
source's loops; `true` is the bounds-guarded default of `isBlockAt`). -/
def blkAt (s : PState) (i : Nat) : Bool := s.blocks.getD i true

/-- The Backspace scan `for (let nc = c - 1; nc >= 0; nc--)` in row `r`:
the first non-block column strictly below the argument, scanning
downward. -/
def findPrevOpenRow (s : PState) (r : Nat) : Nat → Option Nat
  | 0 => none
  | c + 1 => if blkAt s (r * s.width + c) then findPrevOpenRow s r c else some c

/-- The Backspace scan `for (let nr = r - 1; nr >= 0; nr--)` in column
`c`: the first non-block row strictly below the argument. -/
def findPrevOpenCol (s : PState) (c : Nat) : Nat → Option Nat
  | 0 => none
  | r + 1 => if blkAt s (r * s.width + c) then findPrevOpenCol s c r else some r

/-- The state writes of the Backspace step-back branch: focus the found
cell and clear its letter, status and ownership. -/
def clearCellAt (s : PState) (nidx : Nat) : PState :=
  { s with active := some nidx,
           cells := s.cells.set nidx [],
           status := s.status.set nidx .unchecked,
           owners := s.owners.set nidx none }

/-- The `Backspace` case of `onCellKeyDown` at cell `idx`: locked cells
are rejected by the guard at the top of the handler; at a non-empty cell
the handler changes no state; at an empty cell it scans backward in the
current mode's direction for the first non-block cell and, if one exists,
focuses and clears it. -/
def backspaceKey (s : PState) (idx : Nat) : PState :=
  if s.status.get? idx = some .correct then s
  else if (s.cells.getD idx []) ≠ [] then s
  else
    let r := idx / s.width
    let c := idx % s.width
    let prev := match s.mode with
      | .across => (findPrevOpenRow s r c).map (fun c2 => r * s.width + c2)
      | .down => (findPrevOpenCol s c r).map (fun r2 => r2 * s.width + c)
    match prev with
    | none => s
    | some nidx => clearCellAt s nidx

/-- The `Delete` case of `onCellKeyDown`: a locked cell is rejected (both
by the top guard and the case's own re-check); otherwise the cell's
letter, status and ownership are cleared in place, focus unmoved. -/
def deleteKey (s : PState) (idx : Nat) : PState :=
  if s.status.get? idx = some .correct then s
  else
    { s with cells := s.cells.set idx [],
             status := s.status.set idx .unchecked,
             owners := s.owners.set idx none }

/-- `onCellChange` (letter input) at cell `idx`: rejected on a locked
cell; otherwise the value is uppercased, stripped to `A`-`Z`, truncated
to one letter; ownership follows the selected team; an `incorrect` mark
is kept unless the cell became empty.  (The auto-advance focus move
touches only `activeIndex`, which this claim set does not need.) -/
def onCellChange (s : PState) (idx : Nat) (selectedTeam : Option Nat)
    (value : List Nat) : PState :=
  if s.status.get? idx = some .correct then s
  else
    let v := (jsUpperStr value).filter (fun ch => decide (65 ≤ ch) && decide (ch ≤ 90))
    let st :=
      if s.status.getD idx .unchecked = .incorrect then
        if v.take 1 = [] then s.status.set idx .unchecked else s.status.set idx .incorrect
      else s.status
    { s with cells := s.cells.set idx (v.take 1),
             owners := s.owners.set idx (if v ≠ [] then selectedTeam else none),
             status := st }

/-! ## Navigation: `goToClue` and Tab -/

/-- Navigation state: the current direction mode and active cell. -/
structure NavState where
  mode : Mode
  active : Option Nat
deriving DecidableEq

/-- Out-of-range entry placeholder (never read: the normalized index is
always within the array). -/
def dummyEntry : Entry := ⟨0, [], []⟩

/-- `dir === "across" ? puz.across : puz.down`. -/
def dirEntries (across down : List Entry) : Mode → List Entry
  | .across => across
  | .down => down

/-- `goToClue(dir, clueIndex)`: no-op when the direction's entry list is
empty; otherwise normalize the index with the JS double-remainder
`((i % len) + len) % len` (JS `%` is the truncated remainder, `Int.tmod`)
and focus the first cell of that entry. -/
def goToClue (across down : List Entry) (dir : Mode) (clueIndex : Int)
    (nav : NavState) : NavState :=
  let arr := dirEntries across down dir
  if arr.length = 0 then nav
  else
    let len : Int := arr.length
    let norm := ((clueIndex.tmod len) + len).tmod len
    let target := arr.getD norm.toNat dummyEntry
    match target.cells.head? with
    | some i => { mode := dir, active := some i }
    | none => nav

/-- The `cellToAcross` / `cellToDown` maps: for each entry in order, every
one of its cells is mapped to the entry's position (later entries
overwrite, like repeated `Map.set`). -/
def cellToEntryIdx (entries : List Entry) (idx : Nat) : Option Nat :=
  entries.enum.foldl (fun acc p => if idx ∈ p.2.cells then some p.1 else acc) none

/-- The `Tab` case of `onCellKeyDown`: advance to the next entry in the
current mode; from the last entry of a direction, wrap to the first entry
of the other direction. -/
def tabKey (across down : List Entry) (nav : NavState) (idx : Nat) : NavState :=
  match nav.mode with
  | .across =>
      let i := (cellToEntryIdx across idx).getD 0
      if i + 1 < across.length then goToClue across down .across (i + 1 : Nat) nav
      else goToClue across down .down 0 nav
  | .down =>
      let i := (cellToEntryIdx down idx).getD 0
      if i + 1 < down.length then goToClue across down .down (i + 1 : Nat) nav
      else goToClue across down .across 0 nav

/-! ## AnswerChecker and ScoringEngine -/

/-- `checkPuzzle`: recompute the whole status array (`size = w * h`) from
the grid and the user letters, ignoring the previous statuses. -/
def checkPuzzle (grid : List Cell) (size : Nat) (cells : List (List Nat)) : List CStatus :=
  (List.range size).map (fun i =>
    let cell := grid.getD i dummyCell
    if cell.isBlock then .unchecked
    else
      let val := jsUpperStr (cells.getD i [])
      if val = [] then .unchecked
      else if val = cell.solution then .correct
      else .incorrect)

/-- One iteration of the `scores` fold: for a cell whose status is
`correct` and whose owner is non-null, increment the owner's entry
(`(map.get(owner) || 0) + 1`); otherwise leave the map alone. -/
def scoreStep (m : Nat → Option Nat) (p : CStatus × Option Nat) : Nat → Option Nat :=
  if p.1 = .correct then
    match p.2 with
    | some o => fun x => if x = o then some ((m o).getD 0 + 1) else m x
    | none => m
  else m

/-- The `scores` memo, as a JS `Map` modelled by its lookup function:
initialize every known team id to 0, then fold `scoreStep` over the
status/owner pairs. -/
def scoresMap (teams : List Nat) (status : List CStatus)
    (owners : List (Option Nat)) : Nat → Option Nat :=
  let m0 : Nat → Option Nat :=
    teams.foldl (fun m t => fun x => if x = t then some 0 else m x) (fun _ => none)
  (status.zip owners).foldl scoreStep m0

/-! ## Helper lemmas -/

/-- The JS double-remainder normalization used by `goToClue` equals the
mathematical (Euclidean) remainder for a positive divisor. -/
theorem jsNorm_eq_emod (a n : Int) (hn : 0 < n) : ((a.tmod n) + n).tmod n = a.emod n := by
  have hub : a.tmod n < n := Int.tmod_lt_of_pos a hn
  have hneg : (-a).tmod n = -(a.tmod n) := by
    rw [Int.tmod_def, Int.tmod_def, Int.neg_tdiv]; ring
  have hlb : -n < a.tmod n := by
    rcases le_or_lt 0 a with ha | ha
    · have := Int.tmod_nonneg n ha; linarith
    · have h2 : (-a).tmod n < n := Int.tmod_lt_of_pos _ hn
      rw [hneg] at h2; linarith
  have h0 : 0 ≤ a.tmod n + n := by linarith
  rw [Int.tmod_eq_emod h0 (le_of_lt hn)]
  have hd : a.tmod n + n * a.tdiv n = a := Int.tmod_add_tdiv a n
  have heq : a.tmod n + n = a + n * (1 - a.tdiv n) := by linarith [hd]
  rw [heq, Int.add_mul_emod_self_left]; rfl

/-- Indexing the `List.range`-driven rebuild loops. -/
theorem getD_map_range {α : Type} (f : Nat → α) (size i : Nat) (d : α) (hi : i < size) :
    ((List.range size).map f).getD i d = f i := by
  rw [List.getD_eq_getElem?_getD, List.getElem?_map, List.getElem?_range hi]
  rfl

/-! ## Claim theorems -/

/-- **C8.** The check operation is a pure recomputation of the whole
status array from the grid and the user letters: the result has one
status per grid index; a block cell is `unchecked`; a non-block cell with
an empty (uppercased) user letter is `unchecked`; otherwise the cell is
`correct` when the uppercased user letter equals the cell's solution
letter and `incorrect` otherwise. -/
theorem checkPuzzle_recomputes_status (grid : List Cell) (size : Nat)
    (cells : List (List Nat)) (i : Nat) (hi : i < size) :
    (checkPuzzle grid size cells).length = size ∧
    ((grid.getD i dummyCell).isBlock = true →
      (checkPuzzle grid size cells).getD i .unchecked = .unchecked) ∧
    ((grid.getD i dummyCell).isBlock = false → jsUpperStr (cells.getD i []) = [] →
      (checkPuzzle grid size cells).getD i .unchecked = .unchecked) ∧
    ((grid.getD i dummyCell).isBlock = false → jsUpperStr (cells.getD i []) ≠ [] →
      (checkPuzzle grid size cells).getD i .unchecked =
        (if jsUpperStr (cells.getD i []) = (grid.getD i dummyCell).solution
         then .correct else .incorrect)) := by
  unfold checkPuzzle
  refine ⟨by simp, ?_, ?_, ?_⟩
  · intro hb; rw [getD_map_range _ _ _ _ hi]; simp only [hb]; simp
  · intro hb hval; rw [getD_map_range _ _ _ _ hi]; simp only [hb, hval]; simp
  · intro hb hval
    rw [getD_map_range _ _ _ _ hi]
    simp only [hb, Bool.false_eq_true, if_false, if_neg hval]

/-- Witness for C8 on a concrete 1-cell grid with a lowercase guess. -/
theorem checkPuzzle_recomputes_status_witness :
    (checkPuzzle [⟨0, 0, 0, false, [65]⟩] 1 [[97]]).length = 1 ∧
    (([⟨0, 0, 0, false, [65]⟩] : List Cell).getD 0 dummyCell).isBlock = false ∧
    jsUpperStr (([[97]] : List (List Nat)).getD 0 []) ≠ [] ∧
    (checkPuzzle [⟨0, 0, 0, false, [65]⟩] 1 [[97]]).getD 0 .unchecked = .correct := by
  have h := checkPuzzle_recomputes_status [⟨0, 0, 0, false, [65]⟩] 1 [[97]] 0 (by decide)
  refine ⟨h.1, by decide, by decide, ?_⟩
  have := h.2.2.2 (by decide) (by decide)
  rw [this]; decide

/-- The team-score-zero initialization: ids not in the list are untouched. -/
theorem scores_init_not_mem (l : List Nat) (m : Nat → Option Nat) (t : Nat) (h : t ∉ l) :
    (l.foldl (fun m u => fun x => if x = u then some 0 else m x) m) t = m t := by
  induction l generalizing m with
  | nil => rfl
  | cons u l ih =>
      simp only [List.foldl_cons]
      rw [ih _ (fun hl => h (List.mem_cons_of_mem u hl))]
      simp only [List.mem_cons, not_or] at h
      simp [h.1]

/-- The team-score-zero initialization: every known id starts at `some 0`. -/
theorem scores_init_mem (l : List Nat) (m : Nat → Option Nat) (t : Nat) (h : t ∈ l) :
    (l.foldl (fun m u => fun x => if x = u then some 0 else m x) m) t = some 0 := by
  induction l generalizing m with
  | nil => cases h
  | cons u l ih =>
      simp only [List.foldl_cons]
      by_cases hl : t ∈ l
      · exact ih _ hl
      · have ht : t = u := by
          rcases List.mem_cons.mp h with h1 | h1
          · exact h1
          · exact absurd h1 hl
        rw [scores_init_not_mem _ _ _ hl]
        simp [ht]

/-- `scoreStep` on a correct, owned cell. -/
theorem scoreStep_correct_some (m : Nat → Option Nat) (o : Nat) :
    scoreStep m (.correct, some o) =
      fun x => if x = o then some ((m o).getD 0 + 1) else m x := rfl

/-- `scoreStep` on a correct but unowned cell is the identity. -/
theorem scoreStep_correct_none (m : Nat → Option Nat) :
    scoreStep m (.correct, none) = m := rfl

/-- `scoreStep` on a non-correct cell is the identity. -/
theorem scoreStep_not_correct (m : Nat → Option Nat) (st : CStatus) (ow : Option Nat)
    (h : st ≠ .correct) : scoreStep m (st, ow) = m := by
  simp [scoreStep, h]

/-- The scoring fold adds one per `(correct, some t)` pair to `t`'s entry. -/
theorem scores_fold_count (l : List (CStatus × Option Nat)) (m : Nat → Option Nat)
    (k t : Nat) (hm : m t = some k) :
    (l.foldl scoreStep m) t =
      some (k + l.countP (fun p => p.1 == CStatus.correct && p.2 == some t)) := by
  induction l generalizing m k with
  | nil => simpa using hm
  | cons p l ih =>
      simp only [List.foldl_cons]
      rcases p with ⟨st, ow⟩
      by_cases hst : st = CStatus.correct
      · subst hst
        cases ow with
        | none =>
            rw [scoreStep_correct_none, ih _ _ hm, List.countP_cons]
            simp
        | some o =>
            rw [scoreStep_correct_some]
            by_cases hto : t = o
            · subst hto
              have hnext : (fun x => if x = t then some ((m t).getD 0 + 1) else m x) t
                  = some (k + 1) := by simp [hm]
              rw [ih _ _ hnext, List.countP_cons]
              simp [Nat.add_assoc, Nat.add_comm 1]
            · have hnext : (fun x => if x = o then some ((m o).getD 0 + 1) else m x) t
                  = some k := by simp [hto, hm]
              rw [ih _ _ hnext, List.countP_cons]
              have hob : (some o == some t) = false := by
                rw [beq_eq_false_iff_ne]
                exact fun he => hto (Option.some.inj he).symm
              simp [hob]
      · rw [scoreStep_not_correct _ _ _ hst, ih _ _ hm, List.countP_cons]
        have hsb : (st == CStatus.correct) = false := by
          rw [beq_eq_false_iff_ne]; exact hst
        simp [hsb]

/-- **C9.** The score computation maps every known team id to the number
of cell positions whose status is `correct` and whose owner equals that
team id (pairing `status` with `owners` positionally); a cell with no
owner is counted for no team, and a team with no correct owned cells
scores `0`. -/
theorem scores_counts_correct_owned (teams : List Nat) (status : List CStatus)
    (owners : List (Option Nat)) (t : Nat) (ht : t ∈ teams) :
    scoresMap teams status owners t =
      some ((status.zip owners).countP
        (fun p => p.1 == CStatus.correct && p.2 == some t)) := by
  unfold scoresMap
  have h0 := scores_init_mem teams (fun _ => none) t ht
  have := scores_fold_count (status.zip owners) _ 0 t h0
  simpa using this

/-- Witness for C9: two teams, an unowned correct cell, one owned correct
cell each, one incorrect owned cell. -/
theorem scores_counts_correct_owned_witness :
    scoresMap [1, 2] [.correct, .correct, .unchecked, .correct, .incorrect]
        [some 1, none, some 2, some 2, some 1] 1 =
      some ((([CStatus.correct, .correct, .unchecked, .correct, .incorrect]).zip
        [some 1, none, some 2, some 2, some 1]).countP
          (fun p => p.1 == CStatus.correct && p.2 == some 1)) :=
  scores_counts_correct_owned [1, 2] _ _ 1 (by decide)

/-- Characterization of `goToClue`: no-op on an empty entry list;
otherwise the clue index is reduced modulo the list length and the first
cell of the resulting entry is focused. -/
theorem goToClue_eq (across down : List Entry) (dir : Mode) (k : Int)
    (nav : NavState) :
    (dirEntries across down dir = [] → goToClue across down dir k nav = nav) ∧
    (dirEntries across down dir ≠ [] →
      (k.emod (dirEntries across down dir).length).toNat <
        (dirEntries across down dir).length ∧
      ∀ cfirst rest,
        ((dirEntries across down dir).getD
          (k.emod (dirEntries across down dir).length).toNat dummyEntry).cells
            = cfirst :: rest →
        goToClue across down dir k nav = ⟨dir, some cfirst⟩) := by
  constructor
  · intro harr
    unfold goToClue
    simp [harr]
  · intro harr
    have hlen : 0 < (dirEntries across down dir).length := List.length_pos.mpr harr
    have hlenI : (0 : Int) < ((dirEntries across down dir).length : Int) := by
      exact_mod_cast hlen
    have hemod0 : 0 ≤ k.emod ((dirEntries across down dir).length : Int) :=
      Int.emod_nonneg k (by omega)
    have hemodlt : k.emod ((dirEntries across down dir).length : Int) <
        ((dirEntries across down dir).length : Int) := Int.emod_lt_of_pos k hlenI
    refine ⟨by omega, ?_⟩
    intro cfirst rest hcells
    have hne : ¬ (dirEntries across down dir).length = 0 := by omega
    simp only [goToClue, hne, if_false, jsNorm_eq_emod k _ hlenI, hcells, List.head?]

/-- **C10.** `goToClue` is total and in range for every integer clue
index: when the requested direction's entry list is empty the navigation
state is unchanged; otherwise the index is reduced to the representative
of its class modulo the list length (the JS double-remainder equals
`Int.emod`, which lands in `[0, length)`), and the first cell of the
entry at that position is focused with the mode set to the requested
direction. -/
theorem goToClue_total_in_range (across down : List Entry) (dir : Mode) (k : Int)
    (nav : NavState) :
    (dirEntries across down dir = [] -> goToClue across down dir k nav = nav) /\
    (dirEntries across down dir ≠ [] ->
      (k.emod (dirEntries across down dir).length).toNat <
        (dirEntries across down dir).length /\
      forall cfirst rest,
        ((dirEntries across down dir).getD
          (k.emod (dirEntries across down dir).length).toNat dummyEntry).cells
            = cfirst :: rest ->
        goToClue across down dir k nav = ⟨dir, some cfirst⟩) :=
  goToClue_eq across down dir k nav

/-- Witness for C10 at a negative clue index on a 3-entry list:
`-4 mod 3 = 2`. -/
theorem goToClue_total_in_range_witness :
    dirEntries [⟨1, [], [0, 1]⟩, ⟨4, [], [3]⟩, ⟨5, [], [5]⟩] [] .across ≠ [] ∧
    goToClue [⟨1, [], [0, 1]⟩, ⟨4, [], [3]⟩, ⟨5, [], [5]⟩] [] .across (-4)
        ⟨.down, none⟩ = ⟨.across, some 5⟩ := by
  have h := (goToClue_total_in_range [⟨1, [], [0, 1]⟩, ⟨4, [], [3]⟩, ⟨5, [], [5]⟩]
    [] .across (-4) ⟨.down, none⟩).2 (by decide)
  exact ⟨by decide, h.2 5 [] (by decide)⟩

/-- The concrete state of the C1 failing input: a 2-by-1 grid with no
blocks, cell 0 locked (`status = correct`, letter `A`, owned by team 1),
cell 1 empty, mode across. -/
def lockedBugState : PState :=
  ⟨2, 1, [false, false], [[65], []], [.correct, .unchecked], [some 1, none], .across, some 1⟩

/-- **C1.** Claimed: a locked cell (`status == correct`) is never changed
by any input event, including a backspace issued from a different, empty
cell that steps back onto it.  The code violates this: the lock guard in
`onCellKeyDown` checks only the cell the event targets, and the Backspace
step-back branch clears whatever previous non-block cell it finds without
re-checking its status.  Evaluated at the failing input: backspace at the
empty, unlocked cell 1 clears the locked cell 0's letter, resets its
status to `unchecked`, resets its owner, and moves focus onto it. -/
theorem backspace_stepback_clears_locked_cell :
    lockedBugState.status.get? 0 = some .correct ∧
    (backspaceKey lockedBugState 1).cells.get? 0 = some [] ∧
    (backspaceKey lockedBugState 1).status.get? 0 = some .unchecked ∧
    (backspaceKey lockedBugState 1).owners.get? 0 = some none ∧
    (backspaceKey lockedBugState 1).active = some 0 := by decide

/-- **C2 (counterexample).** The claim classifies every `parsePuz`
failure into exactly three format errors, with `MissingDimensions`
covering a zero width byte at 0x2C.  On a buffer too short to contain the
header, however, the `DataView` reads at 0x2C/0x2D/0x2E run before any
validation and throw a `RangeError`, which is none of the three cases. -/
theorem parsePuz_short_buffer_rangeError :
    parsePuz [] .interleavedAD = .error .rangeError ∧
    PuzError.rangeError ≠ .missingDimensions ∧
    PuzError.rangeError ≠ .truncatedGrid ∧
    PuzError.rangeError ≠ .unterminatedString :=
  ⟨rfl, by decide, by decide, by decide⟩

/-- The Backspace backward scan in a row finds nothing iff every earlier
column in the row is a block. -/
theorem findPrevOpenRow_none_iff (s : PState) (r c : Nat) :
    findPrevOpenRow s r c = none ↔ ∀ c2 < c, blkAt s (r * s.width + c2) = true := by
  induction c with
  | zero => simp [findPrevOpenRow]
  | succ c ih =>
      unfold findPrevOpenRow
      by_cases hb : blkAt s (r * s.width + c) = true
      · rw [if_pos hb, ih]
        constructor
        · intro hall c2 hc2
          rcases Nat.lt_succ_iff_lt_or_eq.mp hc2 with h | h
          · exact hall c2 h
          · subst h; exact hb
        · intro hall c2 hc2; exact hall c2 (Nat.lt_succ_of_lt hc2)
      · rw [if_neg hb]
        simp only [reduceCtorEq, false_iff, not_forall]
        exact ⟨c, Nat.lt_succ_self c, by simpa using hb⟩

/-- The Backspace backward scan in a row finds exactly the nearest
earlier non-block column: everything strictly between it and the start
column is a block. -/
theorem findPrevOpenRow_some_iff (s : PState) (r c c2 : Nat) :
    findPrevOpenRow s r c = some c2 ↔
      (c2 < c ∧ blkAt s (r * s.width + c2) = false ∧
        ∀ c3, c2 < c3 → c3 < c → blkAt s (r * s.width + c3) = true) := by
  induction c with
  | zero => simp [findPrevOpenRow]
  | succ c ih =>
      unfold findPrevOpenRow
      by_cases hb : blkAt s (r * s.width + c) = true
      · rw [if_pos hb, ih]
        constructor
        · rintro ⟨h1, h2, h3⟩
          refine ⟨Nat.lt_succ_of_lt h1, h2, ?_⟩
          intro c3 hgt hlt
          rcases Nat.lt_succ_iff_lt_or_eq.mp hlt with h | h
          · exact h3 c3 hgt h
          · subst h; exact hb
        · rintro ⟨h1, h2, h3⟩
          have hne : c2 ≠ c := by
            intro he; subst he; rw [h2] at hb; cases hb
          refine ⟨Nat.lt_of_le_of_ne (Nat.le_of_lt_succ h1) hne, h2, ?_⟩
          intro c3 hgt hlt; exact h3 c3 hgt (Nat.lt_succ_of_lt hlt)
      · rw [if_neg hb]
        constructor
        · rintro he
          have hcc : c2 = c := (Option.some.inj he).symm
          subst hcc
          exact ⟨Nat.lt_succ_self c2, by simpa using hb, fun c3 hgt hlt => absurd hgt (by omega)⟩
        · rintro ⟨h1, h2, h3⟩
          have hcc : c2 = c := by
            by_contra hne
            have hlt : c2 < c := by omega
            have := h3 c (by omega) (Nat.lt_succ_self c)
            exact hb this
          subst hcc; rfl

/-- The Backspace backward scan in a column finds nothing iff every
earlier row in the column is a block. -/
theorem findPrevOpenCol_none_iff (s : PState) (c r : Nat) :
    findPrevOpenCol s c r = none ↔ ∀ r2 < r, blkAt s (r2 * s.width + c) = true := by
  induction r with
  | zero => simp [findPrevOpenCol]
  | succ r ih =>
      unfold findPrevOpenCol
      by_cases hb : blkAt s (r * s.width + c) = true
      · rw [if_pos hb, ih]
        constructor
        · intro hall r2 hr2
          rcases Nat.lt_succ_iff_lt_or_eq.mp hr2 with h | h
          · exact hall r2 h
          · subst h; exact hb
        · intro hall r2 hr2; exact hall r2 (Nat.lt_succ_of_lt hr2)
      · rw [if_neg hb]
        simp only [reduceCtorEq, false_iff, not_forall]
        exact ⟨r, Nat.lt_succ_self r, by simpa using hb⟩

/-- The Backspace backward scan in a column finds exactly the nearest
earlier non-block row. -/
theorem findPrevOpenCol_some_iff (s : PState) (c r r2 : Nat) :
    findPrevOpenCol s c r = some r2 ↔
      (r2 < r ∧ blkAt s (r2 * s.width + c) = false ∧
        ∀ r3, r2 < r3 → r3 < r → blkAt s (r3 * s.width + c) = true) := by
  induction r with
  | zero => simp [findPrevOpenCol]
  | succ r ih =>
      unfold findPrevOpenCol
      by_cases hb : blkAt s (r * s.width + c) = true
      · rw [if_pos hb, ih]
        constructor
        · rintro ⟨h1, h2, h3⟩
          refine ⟨Nat.lt_succ_of_lt h1, h2, ?_⟩
          intro r3 hgt hlt
          rcases Nat.lt_succ_iff_lt_or_eq.mp hlt with h | h
          · exact h3 r3 hgt h
          · subst h; exact hb
        · rintro ⟨h1, h2, h3⟩
          have hne : r2 ≠ r := by
            intro he; subst he; rw [h2] at hb; cases hb
          refine ⟨Nat.lt_of_le_of_ne (Nat.le_of_lt_succ h1) hne, h2, ?_⟩
          intro r3 hgt hlt; exact h3 r3 hgt (Nat.lt_succ_of_lt hlt)
      · rw [if_neg hb]
        constructor
        · rintro he
          have hcc : r2 = r := (Option.some.inj he).symm
          subst hcc
          exact ⟨Nat.lt_succ_self r2, by simpa using hb, fun r3 hgt hlt => absurd hgt (by omega)⟩
        · rintro ⟨h1, h2, h3⟩
          have hcc : r2 = r := by
            by_contra hne
            have := h3 r (by omega) (Nat.lt_succ_self r)
            exact hb this
          subst hcc; rfl

/-- **C4 (amended).** Backspace at an unlocked cell `idx` whose letter is
empty steps backward in the current mode's direction to the nearest
previous non-block cell of the same row (across) or column (down) —
skipping over blocks, a no-op when no such cell exists (in particular at
the start of the row/column); the found cell is cleared (letter emptied,
status reset to `unchecked`, ownership reset to none, see `clearCellAt`)
and focus moves there.  Backspace at a non-empty cell performs none of
these state changes in the handler. -/
theorem backspace_empty_steps_back (s : PState) (idx : Nat) :
    ((s.cells.getD idx []) ≠ [] → backspaceKey s idx = s) ∧
    (s.status.get? idx ≠ some .correct → (s.cells.getD idx []) = [] →
      (s.mode = .across →
        ((∀ c2 < idx % s.width, blkAt s ((idx / s.width) * s.width + c2) = true) →
          backspaceKey s idx = s) ∧
        (∀ c2, c2 < idx % s.width → blkAt s ((idx / s.width) * s.width + c2) = false →
          (∀ c3, c2 < c3 → c3 < idx % s.width →
            blkAt s ((idx / s.width) * s.width + c3) = true) →
          backspaceKey s idx = clearCellAt s ((idx / s.width) * s.width + c2))) ∧
      (s.mode = .down →
        ((∀ r2 < idx / s.width, blkAt s (r2 * s.width + idx % s.width) = true) →
          backspaceKey s idx = s) ∧
        (∀ r2, r2 < idx / s.width → blkAt s (r2 * s.width + idx % s.width) = false →
          (∀ r3, r2 < r3 → r3 < idx / s.width →
            blkAt s (r3 * s.width + idx % s.width) = true) →
          backspaceKey s idx = clearCellAt s (r2 * s.width + idx % s.width)))) := by
  constructor
  · intro hne
    unfold backspaceKey
    by_cases hlock : s.status.get? idx = some .correct
    · rw [if_pos hlock]
    · rw [if_neg hlock, if_pos hne]
  · intro hlock hempty
    constructor
    · intro hmode
      constructor
      · intro hall
        have hnone : findPrevOpenRow s (idx / s.width) (idx % s.width) = none :=
          (findPrevOpenRow_none_iff s _ _).mpr hall
        unfold backspaceKey
        rw [if_neg hlock, if_neg (by simpa using hempty)]
        simp only [hmode, hnone, Option.map_none']
      · intro c2 h1 h2 h3
        have hsome : findPrevOpenRow s (idx / s.width) (idx % s.width) = some c2 :=
          (findPrevOpenRow_some_iff s _ _ _).mpr ⟨h1, h2, h3⟩
        unfold backspaceKey
        rw [if_neg hlock, if_neg (by simpa using hempty)]
        simp only [hmode, hsome, Option.map_some']
    · intro hmode
      constructor
      · intro hall
        have hnone : findPrevOpenCol s (idx % s.width) (idx / s.width) = none :=
          (findPrevOpenCol_none_iff s _ _).mpr hall
        unfold backspaceKey
        rw [if_neg hlock, if_neg (by simpa using hempty)]
        simp only [hmode, hnone, Option.map_none']
      · intro r2 h1 h2 h3
        have hsome : findPrevOpenCol s (idx % s.width) (idx / s.width) = some r2 :=
          (findPrevOpenCol_some_iff s _ _ _).mpr ⟨h1, h2, h3⟩
        unfold backspaceKey
        rw [if_neg hlock, if_neg (by simpa using hempty)]
        simp only [hmode, hsome, Option.map_some']

/-- A 1-by-2 open grid with cell 0 filled and unlocked and cell 1 empty. -/
def rowTwoState : PState :=
  ⟨2, 1, [false, false], [[65], []], [.unchecked, .unchecked], [some 1, none],
    .across, some 1⟩

/-- Witness for the amended C4: on `rowTwoState`, backspace at the empty
cell 1 clears cell 0 and focuses it. -/
theorem backspace_empty_steps_back_witness :
    backspaceKey rowTwoState 1 = clearCellAt rowTwoState 0 := by
  have h := (backspace_empty_steps_back rowTwoState 1).2 (by decide) (by decide)
  refine (h.1 (by decide)).2 0 (by decide) (by decide) ?_
  intro c3 hgt hlt
  change c3 < 1 at hlt
  omega

/-- The concrete state refuting the literal reading of C4: a 1-by-3 row
`open A, block, open empty`, mode across, backspace at cell 2. -/
def stepBackExState : PState :=
  ⟨3, 1, [false, true, false], [[65], [], []], [.unchecked, .unchecked, .unchecked],
    [some 1, none, none], .across, some 2⟩

/-- **C4 (counterexample).** The claim says backspace at an empty cell
"steps one cell backward … skipping nothing".  At `stepBackExState` the
cell one step backward from cell 2 is the block at index 1, yet the
handler skips it: focus lands two cells back on index 0 (not on index 1),
and cell 0's letter `A` — which a single backward step would never have
touched — is cleared. -/
theorem backspace_one_step_claim_false :
    stepBackExState.cells.get? 2 = some [] ∧
    stepBackExState.blocks.get? 1 = some true ∧
    stepBackExState.cells.get? 0 = some [65] ∧
    (backspaceKey stepBackExState 2).active = some 0 ∧
    (backspaceKey stepBackExState 2).active ≠ some 1 ∧
    (backspaceKey stepBackExState 2).cells.get? 0 = some [] := by decide

/-- **C7.** Tab wraps across directions, not within one: with the active
cell lying in entry `i` of the current mode's list, if `i` is not the
last index Tab focuses the first cell of entry `i + 1` of the same
direction with the mode unchanged; from the last across entry it focuses
the first cell of the first down entry and sets the mode to down, and
symmetrically from the last down entry. -/
theorem tab_wraps_across_directions (across down : List Entry) (nav : NavState)
    (idx i : Nat) :
    (nav.mode = .across → cellToEntryIdx across idx = some i →
      (i + 1 < across.length →
        ∀ cf rest, (across.getD (i + 1) dummyEntry).cells = cf :: rest →
          tabKey across down nav idx = ⟨.across, some cf⟩) ∧
      (i + 1 = across.length → down ≠ [] →
        ∀ cf rest, (down.getD 0 dummyEntry).cells = cf :: rest →
          tabKey across down nav idx = ⟨.down, some cf⟩)) ∧
    (nav.mode = .down → cellToEntryIdx down idx = some i →
      (i + 1 < down.length →
        ∀ cf rest, (down.getD (i + 1) dummyEntry).cells = cf :: rest →
          tabKey across down nav idx = ⟨.down, some cf⟩) ∧
      (i + 1 = down.length → across ≠ [] →
        ∀ cf rest, (across.getD 0 dummyEntry).cells = cf :: rest →
          tabKey across down nav idx = ⟨.across, some cf⟩)) := by
  constructor
  · intro hmode hmap
    constructor
    · intro hlt cf rest hcells
      have harr : dirEntries across down .across ≠ [] := by
        simp only [dirEntries]
        intro hnil
        rw [hnil] at hlt
        simp at hlt
      have hval : (((i + 1 : Nat) : Int).emod ((dirEntries across down .across).length : Int))
          = ((i + 1 : Nat) : Int) := by
        apply Int.emod_eq_of_lt (by positivity)
        simp only [dirEntries]
        exact_mod_cast hlt
      have h := ((goToClue_eq across down .across ((i + 1 : Nat) : Int) nav).2 harr).2 cf rest
      rw [hval] at h
      simp only [dirEntries, Int.toNat_natCast] at h
      have hgo := h hcells
      simp only [tabKey, hmode, hmap, Option.getD_some, if_pos hlt]
      exact hgo
    · intro hlast hdown cf rest hcells
      have harr : dirEntries across down .down ≠ [] := by simpa [dirEntries] using hdown
      have hval : ((0 : Int).emod ((dirEntries across down .down).length : Int)) = 0 := by
        apply Int.emod_eq_of_lt le_rfl
        simp only [dirEntries]
        have := List.length_pos.mpr hdown
        exact_mod_cast this
      have h := ((goToClue_eq across down .down 0 nav).2 harr).2 cf rest
      rw [hval] at h
      simp only [dirEntries, Int.toNat_zero] at h
      have hgo := h hcells
      simp only [tabKey, hmode, hmap, Option.getD_some, if_neg (by omega : ¬ i + 1 < across.length)]
      exact hgo
  · intro hmode hmap
    constructor
    · intro hlt cf rest hcells
      have harr : dirEntries across down .down ≠ [] := by
        simp only [dirEntries]
        intro hnil
        rw [hnil] at hlt
        simp at hlt
      have hval : (((i + 1 : Nat) : Int).emod ((dirEntries across down .down).length : Int))
          = ((i + 1 : Nat) : Int) := by
        apply Int.emod_eq_of_lt (by positivity)
        simp only [dirEntries]
        exact_mod_cast hlt
      have h := ((goToClue_eq across down .down ((i + 1 : Nat) : Int) nav).2 harr).2 cf rest
      rw [hval] at h
      simp only [dirEntries, Int.toNat_natCast] at h
      have hgo := h hcells
      simp only [tabKey, hmode, hmap, Option.getD_some, if_pos hlt]
      exact hgo
    · intro hlast hacross cf rest hcells
      have harr : dirEntries across down .across ≠ [] := by simpa [dirEntries] using hacross
      have hval : ((0 : Int).emod ((dirEntries across down .across).length : Int)) = 0 := by
        apply Int.emod_eq_of_lt le_rfl
        simp only [dirEntries]
        have := List.length_pos.mpr hacross
        exact_mod_cast this
      have h := ((goToClue_eq across down .across 0 nav).2 harr).2 cf rest
      rw [hval] at h
      simp only [dirEntries, Int.toNat_zero] at h
      have hgo := h hcells
      simp only [tabKey, hmode, hmap, Option.getD_some, if_neg (by omega : ¬ i + 1 < down.length)]
      exact hgo

/-- Reading one NUL-terminated string: either the remaining buffer holds
no NUL at all and the read fails `unterminatedString`, or it succeeds and
consumes exactly one NUL of the remaining buffer. -/
theorem readNT_cases (bytes : List Nat) (cursor : Nat) :
    (readNT bytes cursor = .error .unterminatedString ∧ (bytes.drop cursor).count 0 = 0) ∨
    (∃ s c2, readNT bytes cursor = .ok (s, c2) ∧
      (bytes.drop c2).count 0 + 1 = (bytes.drop cursor).count 0) := by
  unfold readNT
  by_cases hcond : bytes.length ≤
      cursor + ((bytes.drop cursor).takeWhile (fun b => b != 0)).length
  · left
    refine ⟨by rw [if_pos hcond], ?_⟩
    have hsub : ((bytes.drop cursor).takeWhile (fun b => b != 0)).Sublist (bytes.drop cursor) :=
      List.takeWhile_sublist _
    have hlen2 : (bytes.drop cursor).length = bytes.length - cursor := by
      simp
    have hslen : ((bytes.drop cursor).takeWhile (fun b => b != 0)).length =
        (bytes.drop cursor).length := by
      have h1 := hsub.length_le
      omega
    have hfull : (bytes.drop cursor).takeWhile (fun b => b != 0) = bytes.drop cursor :=
      hsub.eq_of_length hslen
    rw [List.count_eq_zero]
    intro hmem
    have := List.mem_takeWhile_imp (hfull ▸ hmem)
    simp at this
  · right
    refine ⟨_, _, by rw [if_neg hcond], ?_⟩
    have hdec := List.takeWhile_append_dropWhile (fun b => b != 0) (bytes.drop cursor)
    set s := (bytes.drop cursor).takeWhile (fun b => b != 0) with hs
    set t2 := (bytes.drop cursor).dropWhile (fun b => b != 0) with ht2
    have hne : t2 ≠ [] := by
      intro hnil
      rw [hnil, List.append_nil] at hdec
      have : s.length = (bytes.drop cursor).length := by rw [hdec]
      simp at this
      omega
    have hhead : ((t2.head hne) != 0) = false := List.head_dropWhile_not _ _ hne
    have hhead0 : t2.head hne = 0 := by simpa using hhead
    have hcons : t2 = 0 :: t2.tail := by
      conv_lhs => rw [← List.head_cons_tail t2 hne]
      rw [hhead0]
    have hdrop : bytes.drop (cursor + s.length + 1) = t2.tail := by
      have h1 : bytes.drop (cursor + s.length + 1) =
          ((bytes.drop cursor).drop s.length).drop 1 := by
        rw [List.drop_drop, List.drop_drop]
        ring_nf
      rw [h1, ← hdec, List.drop_left, ← List.drop_one]
    have hcount0 : s.count 0 = 0 := by
      rw [List.count_eq_zero]
      intro hmem
      have := List.mem_takeWhile_imp (hs ▸ hmem)
      simp at this
    have hsplit : (bytes.drop cursor).count 0 = s.count 0 + t2.count 0 := by
      rw [← hdec, List.count_append]
    rw [hdrop, hsplit, hcount0]
    conv_rhs => rw [hcons]
    simp [List.count_cons]

/-- Reading `n` NUL-terminated strings: fails `unterminatedString` when
fewer than `n` NULs remain, succeeds otherwise. -/
theorem readStrs_cases (bytes : List Nat) (n cursor : Nat) :
    (readStrs bytes n cursor = .error .unterminatedString ∧
      (bytes.drop cursor).count 0 < n) ∨
    (∃ r, readStrs bytes n cursor = .ok r ∧ n ≤ (bytes.drop cursor).count 0) := by
  induction n generalizing cursor with
  | zero => exact Or.inr ⟨([], cursor), rfl, Nat.zero_le _⟩
  | succ n ih =>
      rcases readNT_cases bytes cursor with ⟨herr, hcnt⟩ | ⟨s, c2, hok, hcnt⟩
      · left
        constructor
        · show (do
            let p ← readNT bytes cursor
            let q ← readStrs bytes n p.2
            pure (p.1 :: q.1, q.2)) = Except.error PuzError.unterminatedString
          rw [herr]; rfl
        · omega
      · rcases ih c2 with ⟨herr2, hcnt2⟩ | ⟨r, hok2, hcnt2⟩
        · left
          constructor
          · show (do
              let p ← readNT bytes cursor
              let q ← readStrs bytes n p.2
              pure (p.1 :: q.1, q.2)) = Except.error PuzError.unterminatedString
            rw [hok]
            show (do
              let q ← readStrs bytes n c2
              pure (s :: q.1, q.2)) = Except.error PuzError.unterminatedString
            rw [herr2]; rfl
          · omega
        · right
          refine ⟨(s :: r.1, r.2), ?_, by omega⟩
          show (do
            let p ← readNT bytes cursor
            let q ← readStrs bytes n p.2
            pure (p.1 :: q.1, q.2)) = Except.ok (s :: r.1, r.2)
          rw [hok]
          show (do
            let q ← readStrs bytes n c2
            pure (s :: q.1, q.2)) = Except.ok (s :: r.1, r.2)
          rw [hok2]
          rfl

/-- Monad bind on a successful `Except` value. -/
theorem except_bind_ok {α β : Type} (a : α) (f : α → Except PuzError β) :
    (Except.ok a >>= f) = f a := rfl

/-- With a full header, `parsePuz` throws `missingDimensions` when the
width or height byte is zero. -/
theorem parsePuz_missing_dims (bytes : List Nat) (order : ClueOrder)
    (hlen : 0x30 ≤ bytes.length)
    (h0 : bytes.getD 0x2C 0 = 0 ∨ bytes.getD 0x2D 0 = 0) :
    parsePuz bytes order = .error .missingDimensions := by
  have h44 : getU8 bytes 0x2C = .ok (bytes.getD 0x2C 0) := by
    unfold getU8; rw [if_pos (by omega)]
  have h45 : getU8 bytes 0x2D = .ok (bytes.getD 0x2D 0) := by
    unfold getU8; rw [if_pos (by omega)]
  have h46 : getU16LE bytes 0x2E = .ok (bytes.getD 0x2E 0 + 256 * bytes.getD 0x2F 0) := by
    unfold getU16LE; rw [if_pos (by omega)]
  have hb : (bytes.getD 0x2C 0 == 0 || bytes.getD 0x2D 0 == 0) = true := by
    rcases h0 with h | h <;> rw [h] <;> simp
  simp only [parsePuz, h44, h45, h46, except_bind_ok, hb, if_true]
  rfl

/-- With a full header and non-zero dimensions, `parsePuz` throws
`truncatedGrid` when the buffer cannot hold both grid planes. -/
theorem parsePuz_truncated (bytes : List Nat) (order : ClueOrder)
    (hlen : 0x30 ≤ bytes.length)
    (h0 : ¬(bytes.getD 0x2C 0 = 0 ∨ bytes.getD 0x2D 0 = 0))
    (hshort : bytes.length < 0x34 + 2 * (bytes.getD 0x2C 0 * bytes.getD 0x2D 0)) :
    parsePuz bytes order = .error .truncatedGrid := by
  have h44 : getU8 bytes 0x2C = .ok (bytes.getD 0x2C 0) := by
    unfold getU8; rw [if_pos (by omega)]
  have h45 : getU8 bytes 0x2D = .ok (bytes.getD 0x2D 0) := by
    unfold getU8; rw [if_pos (by omega)]
  have h46 : getU16LE bytes 0x2E = .ok (bytes.getD 0x2E 0 + 256 * bytes.getD 0x2F 0) := by
    unfold getU16LE; rw [if_pos (by omega)]
  have hb : (bytes.getD 0x2C 0 == 0 || bytes.getD 0x2D 0 == 0) = false := by
    push_neg at h0
    simp only [Bool.or_eq_false_iff, beq_eq_false_iff_ne]
    exact ⟨h0.1, h0.2⟩
  simp only [parsePuz, h44, h45, h46, except_bind_ok, hb, Bool.false_eq_true, if_false,
    if_pos hshort]
  rfl

/-- With non-zero dimensions and both grid planes present, `parsePuz`
throws `unterminatedString` when the string section after the grid planes
has fewer NUL terminators than the required `3 + clueCount` strings. -/
theorem parsePuz_unterminated (bytes : List Nat) (order : ClueOrder)
    (hlen : 0x30 ≤ bytes.length)
    (h0 : ¬(bytes.getD 0x2C 0 = 0 ∨ bytes.getD 0x2D 0 = 0))
    (hfit : ¬(bytes.length < 0x34 + 2 * (bytes.getD 0x2C 0 * bytes.getD 0x2D 0)))
    (hz : (bytes.drop (0x34 + 2 * (bytes.getD 0x2C 0 * bytes.getD 0x2D 0))).count 0 <
      3 + (bytes.getD 0x2E 0 + 256 * bytes.getD 0x2F 0)) :
    parsePuz bytes order = .error .unterminatedString := by
  have h44 : getU8 bytes 0x2C = .ok (bytes.getD 0x2C 0) := by
    unfold getU8; rw [if_pos (by omega)]
  have h45 : getU8 bytes 0x2D = .ok (bytes.getD 0x2D 0) := by
    unfold getU8; rw [if_pos (by omega)]
  have h46 : getU16LE bytes 0x2E = .ok (bytes.getD 0x2E 0 + 256 * bytes.getD 0x2F 0) := by
    unfold getU16LE; rw [if_pos (by omega)]
  have hb : (bytes.getD 0x2C 0 == 0 || bytes.getD 0x2D 0 == 0) = false := by
    push_neg at h0
    simp only [Bool.or_eq_false_iff, beq_eq_false_iff_ne]
    exact ⟨h0.1, h0.2⟩
  simp only [parsePuz, h44, h45, h46, except_bind_ok, hb, Bool.false_eq_true, if_false,
    if_neg hfit]
  rcases readNT_cases bytes (0x34 + 2 * (bytes.getD 0x2C 0 * bytes.getD 0x2D 0)) with
    ⟨he1, hc1⟩ | ⟨s1, c1, ho1, hc1⟩
  · rw [he1]; rfl
  · rw [ho1, except_bind_ok]
    rcases readNT_cases bytes c1 with ⟨he2, hc2⟩ | ⟨s2, c2, ho2, hc2⟩
    · rw [he2]; rfl
    · rw [ho2, except_bind_ok]
      rcases readNT_cases bytes c2 with ⟨he3, hc3⟩ | ⟨s3, c3, ho3, hc3⟩
      · rw [he3]; rfl
      · rw [ho3, except_bind_ok]
        rcases readStrs_cases bytes (bytes.getD 0x2E 0 + 256 * bytes.getD 0x2F 0) c3 with
          ⟨he4, hc4⟩ | ⟨r, ho4, hc4⟩
        · rw [he4]; rfl
        · omega

/-- With non-zero dimensions, both grid planes, and enough NUL-terminated
strings, `parsePuz` succeeds. -/
theorem parsePuz_success (bytes : List Nat) (order : ClueOrder)
    (hlen : 0x30 ≤ bytes.length)
    (h0 : ¬(bytes.getD 0x2C 0 = 0 ∨ bytes.getD 0x2D 0 = 0))
    (hfit : ¬(bytes.length < 0x34 + 2 * (bytes.getD 0x2C 0 * bytes.getD 0x2D 0)))
    (hz : 3 + (bytes.getD 0x2E 0 + 256 * bytes.getD 0x2F 0) ≤
      (bytes.drop (0x34 + 2 * (bytes.getD 0x2C 0 * bytes.getD 0x2D 0))).count 0) :
    ∃ p, parsePuz bytes order = .ok p := by
  have h44 : getU8 bytes 0x2C = .ok (bytes.getD 0x2C 0) := by
    unfold getU8; rw [if_pos (by omega)]
  have h45 : getU8 bytes 0x2D = .ok (bytes.getD 0x2D 0) := by
    unfold getU8; rw [if_pos (by omega)]
  have h46 : getU16LE bytes 0x2E = .ok (bytes.getD 0x2E 0 + 256 * bytes.getD 0x2F 0) := by
    unfold getU16LE; rw [if_pos (by omega)]
  have hb : (bytes.getD 0x2C 0 == 0 || bytes.getD 0x2D 0 == 0) = false := by
    push_neg at h0
    simp only [Bool.or_eq_false_iff, beq_eq_false_iff_ne]
    exact ⟨h0.1, h0.2⟩
  simp only [parsePuz, h44, h45, h46, except_bind_ok, hb, Bool.false_eq_true, if_false,
    if_neg hfit]
  rcases readNT_cases bytes (0x34 + 2 * (bytes.getD 0x2C 0 * bytes.getD 0x2D 0)) with
    ⟨he1, hc1⟩ | ⟨s1, c1, ho1, hc1⟩
  · omega
  · rw [ho1, except_bind_ok]
    rcases readNT_cases bytes c1 with ⟨he2, hc2⟩ | ⟨s2, c2, ho2, hc2⟩
    · omega
    · rw [ho2, except_bind_ok]
      rcases readNT_cases bytes c2 with ⟨he3, hc3⟩ | ⟨s3, c3, ho3, hc3⟩
      · omega
      · rw [ho3, except_bind_ok]
        rcases readStrs_cases bytes (bytes.getD 0x2E 0 + 256 * bytes.getD 0x2F 0) c3 with
          ⟨he4, hc4⟩ | ⟨r, ho4, hc4⟩
        · omega
        · rw [ho4, except_bind_ok]
          exact ⟨_, rfl⟩

/-- **C2 (amended).** For every buffer long enough to contain the header
reads (at least 0x30 bytes), `parsePuz` fails with a format error and no
partial result exactly when a violation occurs, classified by exactly
three cases: `missingDimensions` iff the width byte at 0x2C or the height
byte at 0x2D is 0; `truncatedGrid` iff (dimensions non-zero and) the
buffer is shorter than `0x34 + 2*width*height`; `unterminatedString` iff
(the previous checks pass and) fewer than `3 + clueCount` NUL terminators
remain after the two grid planes, i.e. some required string (title,
author, copyright, or one of the clues) has no terminator before buffer
end; on any other input it returns a `ParsedPuz`.  (Buffers shorter than
0x30 bytes instead fail with an out-of-range header read, see the
counterexample.) -/
theorem parsePuz_error_classification (bytes : List Nat) (order : ClueOrder)
    (hlen : 0x30 ≤ bytes.length) :
    (parsePuz bytes order = .error .missingDimensions ↔
      (bytes.getD 0x2C 0 = 0 ∨ bytes.getD 0x2D 0 = 0)) ∧
    (parsePuz bytes order = .error .truncatedGrid ↔
      (¬(bytes.getD 0x2C 0 = 0 ∨ bytes.getD 0x2D 0 = 0) ∧
        bytes.length < 0x34 + 2 * (bytes.getD 0x2C 0 * bytes.getD 0x2D 0))) ∧
    (parsePuz bytes order = .error .unterminatedString ↔
      (¬(bytes.getD 0x2C 0 = 0 ∨ bytes.getD 0x2D 0 = 0) ∧
        ¬(bytes.length < 0x34 + 2 * (bytes.getD 0x2C 0 * bytes.getD 0x2D 0)) ∧
        (bytes.drop (0x34 + 2 * (bytes.getD 0x2C 0 * bytes.getD 0x2D 0))).count 0 <
          3 + (bytes.getD 0x2E 0 + 256 * bytes.getD 0x2F 0))) ∧
    ((∃ p, parsePuz bytes order = .ok p) ↔
      (¬(bytes.getD 0x2C 0 = 0 ∨ bytes.getD 0x2D 0 = 0) ∧
        ¬(bytes.length < 0x34 + 2 * (bytes.getD 0x2C 0 * bytes.getD 0x2D 0)) ∧
        3 + (bytes.getD 0x2E 0 + 256 * bytes.getD 0x2F 0) ≤
          (bytes.drop (0x34 + 2 * (bytes.getD 0x2C 0 * bytes.getD 0x2D 0))).count 0)) := by
  by_cases hA : bytes.getD 0x2C 0 = 0 ∨ bytes.getD 0x2D 0 = 0
  · have h := parsePuz_missing_dims bytes order hlen hA
    refine ⟨⟨fun _ => hA, fun _ => h⟩, ?_, ?_, ?_⟩
    · constructor
      · intro he; rw [h] at he; simp at he
      · rintro ⟨hnA, _⟩; exact absurd hA hnA
    · constructor
      · intro he; rw [h] at he; simp at he
      · rintro ⟨hnA, _, _⟩; exact absurd hA hnA
    · constructor
      · rintro ⟨p, hp⟩; rw [h] at hp; simp at hp
      · rintro ⟨hnA, _⟩; exact absurd hA hnA
  · by_cases hB : bytes.length < 0x34 + 2 * (bytes.getD 0x2C 0 * bytes.getD 0x2D 0)
    · have h := parsePuz_truncated bytes order hlen hA hB
      refine ⟨?_, ⟨fun _ => ⟨hA, hB⟩, fun _ => h⟩, ?_, ?_⟩
      · constructor
        · intro he; rw [h] at he; simp at he
        · intro hA2; exact absurd hA2 hA
      · constructor
        · intro he; rw [h] at he; simp at he
        · rintro ⟨_, hnB, _⟩; exact absurd hB hnB
      · constructor
        · rintro ⟨p, hp⟩; rw [h] at hp; simp at hp
        · rintro ⟨_, hnB, _⟩; exact absurd hB hnB
    · by_cases hC : (bytes.drop (0x34 + 2 * (bytes.getD 0x2C 0 * bytes.getD 0x2D 0))).count 0 <
          3 + (bytes.getD 0x2E 0 + 256 * bytes.getD 0x2F 0)
      · have h := parsePuz_unterminated bytes order hlen hA hB hC
        refine ⟨?_, ?_, ⟨fun _ => ⟨hA, hB, hC⟩, fun _ => h⟩, ?_⟩
        · constructor
          · intro he; rw [h] at he; simp at he
          · intro hA2; exact absurd hA2 hA
        · constructor
          · intro he; rw [h] at he; simp at he
          · rintro ⟨_, hB2⟩; exact absurd hB2 hB
        · constructor
          · rintro ⟨p, hp⟩; rw [h] at hp; simp at hp
          · rintro ⟨_, _, hc⟩; omega
      · obtain ⟨p, hp⟩ := parsePuz_success bytes order hlen hA hB (by omega)
        refine ⟨?_, ?_, ?_, ⟨fun _ => ⟨hA, hB, by omega⟩, fun _ => ⟨p, hp⟩⟩⟩
        · constructor
          · intro he; rw [hp] at he; simp at he
          · intro hA2; exact absurd hA2 hA
        · constructor
          · intro he; rw [hp] at he; simp at he
          · rintro ⟨_, hB2⟩; exact absurd hB2 hB
        · constructor
          · intro he; rw [hp] at he; simp at he
          · rintro ⟨_, _, hc⟩; omega

instance : Inhabited Entry := ⟨dummyEntry⟩

/-- `take()` yields either an existing raw clue or the empty string. -/
theorem takeClue_eq_or_mem (clues : List (List Nat)) (k : Nat) :
    takeClue clues k = [] ∨ takeClue clues k ∈ clues := by
  unfold takeClue
  rcases Nat.lt_or_ge k clues.length with h | h
  · right
    rw [List.getD_eq_getElem?_getD, List.getElem?_eq_getElem h]
    exact List.getElem_mem h
  · left
    rw [List.getD_eq_getElem?_getD, List.getElem?_eq_none (by omega)]
    rfl

/-- A non-empty `take()` result can only come from a real raw clue. -/
theorem takeClue_lt_of_ne (clues : List (List Nat)) (k : Nat)
    (h : takeClue clues k ≠ []) : k < clues.length := by
  by_contra hge
  apply h
  unfold takeClue
  rw [List.getD_eq_getElem?_getD, List.getElem?_eq_none (by omega)]
  rfl

/-- Whether an entry has received a non-empty clue. -/
def hasClue (e : Entry) : Bool := !(e.clue == [])

/-- `List.modify` at a position whose old and new values both fail `p`
keeps the `countP`. -/
theorem countP_modify_eq (p : Entry → Bool) (f : Entry → Entry) (i : Nat) (l : List Entry)
    (hold : ∀ e, l[i]? = some e → p e = false)
    (hnew : ∀ e, l[i]? = some e → p (f e) = false) :
    (List.modify f i l).countP p = l.countP p := by
  induction l generalizing i with
  | nil => rw [List.modify_nil]
  | cons x xs ih =>
      cases i with
      | zero =>
          have h1 := hold x List.getElem?_cons_zero
          have h2 := hnew x List.getElem?_cons_zero
          rw [show List.modify f 0 (x :: xs) = f x :: xs from rfl]
          simp [List.countP_cons, h1, h2]
      | succ i =>
          rw [show List.modify f (i + 1) (x :: xs) = x :: List.modify f i xs from rfl]
          simp only [List.countP_cons]
          rw [ih i (fun e hg => hold e (by rw [List.getElem?_cons_succ]; exact hg))
            (fun e hg => hnew e (by rw [List.getElem?_cons_succ]; exact hg))]

/-- `List.modify` at a position whose old value fails `p` raises `countP`
by at most one. -/
theorem countP_modify_le (p : Entry → Bool) (f : Entry → Entry) (i : Nat) (l : List Entry)
    (hold : ∀ e, l[i]? = some e → p e = false) :
    (List.modify f i l).countP p ≤ l.countP p + 1 := by
  induction l generalizing i with
  | nil => rw [List.modify_nil]; omega
  | cons x xs ih =>
      cases i with
      | zero =>
          have h1 := hold x List.getElem?_cons_zero
          rw [show List.modify f 0 (x :: xs) = f x :: xs from rfl]
          simp only [List.countP_cons, h1]
          by_cases h2 : p (f x) = true <;> simp [h2]
      | succ i =>
          rw [show List.modify f (i + 1) (x :: xs) = x :: List.modify f i xs from rfl]
          simp only [List.countP_cons]
          have := ih i (fun e hg => hold e (by rw [List.getElem?_cons_succ]; exact hg))
          by_cases h2 : p x = true <;> simp [h2] <;> omega


/-- `List.modify` leaves other positions unread. -/
theorem getElem?_modify_ne (f : Entry → Entry) (n : Nat) (l : List Entry) (m : Nat)
    (h : n ≠ m) : (List.modify f n l)[m]? = l[m]? := by
  rw [List.getElem?_modify]
  cases l[m]? <;> simp [h]

/-- Membership after `List.modify`: an element of the result is either an
untouched element or the image of the modified one. -/
theorem mem_modify (f : Entry → Entry) (i : Nat) (l : List Entry) (e : Entry)
    (h : e ∈ List.modify f i l) : e ∈ l ∨ ∃ x, l[i]? = some x ∧ e = f x := by
  by_cases hi : i < l.length
  · rw [List.modify_eq_set] at h
    rcases List.mem_or_eq_of_mem_set h with h | h
    · exact Or.inl h
    · refine Or.inr ⟨l[i], List.getElem?_eq_getElem hi, ?_⟩
      rw [h, List.getElem?_eq_getElem hi]
      rfl
  · rw [List.modify_eq_self (by omega)] at h
    exact Or.inl h

/-- Invariant of the interleaved clue-assignment fold: array lengths are
preserved, every assigned clue is a raw clue or empty, entries at or past
the running indices still hold the empty clue, and at most
`min clueIdx clues.length` entries hold a non-empty clue. -/
def AssignInv (clues : List (List Nat)) (lenA lenD : Nat) (st : AssignState) : Prop :=
  st.across.length = lenA ∧ st.down.length = lenD ∧
  (∀ e ∈ st.across, e.clue = [] ∨ e.clue ∈ clues) ∧
  (∀ e ∈ st.down, e.clue = [] ∨ e.clue ∈ clues) ∧
  (∀ i, st.ai ≤ i → ∀ e, st.across[i]? = some e → e.clue = []) ∧
  (∀ j, st.di ≤ j → ∀ e, st.down[j]? = some e → e.clue = []) ∧
  st.across.countP hasClue + st.down.countP hasClue
    ≤ min st.ci clues.length

/-- `stepA` preserves the assignment invariant. -/
theorem assignInv_stepA (clues : List (List Nat)) (lenA lenD : Nat) (st : AssignState)
    (hinv : AssignInv clues lenA lenD st) :
    AssignInv clues lenA lenD (stepA clues st) := by
  obtain ⟨h1, h2, h3, h4, h5, h6, h7⟩ := hinv
  refine ⟨?_, h2, ?_, h4, ?_, h6, ?_⟩
  · simpa [stepA, List.length_modify] using h1
  · intro e he
    simp only [stepA] at he
    rcases mem_modify _ _ _ _ he with hmem | ⟨x, _, rfl⟩
    · exact h3 e hmem
    · rcases takeClue_eq_or_mem clues st.ci with hh | hh
      · exact Or.inl hh
      · exact Or.inr hh
  · intro i hi e hget
    simp only [stepA] at hget hi
    rw [getElem?_modify_ne _ _ _ _ (by omega)] at hget
    exact h5 i (by omega) e hget
  · simp only [stepA]
    by_cases hne : takeClue clues st.ci = []
    · rw [countP_modify_eq _ _ _ _
        (fun e hg => by have := h5 st.ai le_rfl e hg; simp [hasClue, this])
        (fun e hg => by simp [hasClue, hne])]
      omega
    · have hlt := takeClue_lt_of_ne clues st.ci hne
      have hle := countP_modify_le hasClue
        (fun e => { e with clue := takeClue clues st.ci }) st.ai st.across
        (fun e hg => by have := h5 st.ai le_rfl e hg; simp [hasClue, this])
      omega

/-- `stepD` preserves the assignment invariant. -/
theorem assignInv_stepD (clues : List (List Nat)) (lenA lenD : Nat) (st : AssignState)
    (hinv : AssignInv clues lenA lenD st) :
    AssignInv clues lenA lenD (stepD clues st) := by
  obtain ⟨h1, h2, h3, h4, h5, h6, h7⟩ := hinv
  refine ⟨h1, ?_, h3, ?_, h5, ?_, ?_⟩
  · simpa [stepD, List.length_modify] using h2
  · intro e he
    simp only [stepD] at he
    rcases mem_modify _ _ _ _ he with hmem | ⟨x, _, rfl⟩
    · exact h4 e hmem
    · rcases takeClue_eq_or_mem clues st.ci with hh | hh
      · exact Or.inl hh
      · exact Or.inr hh
  · intro j hj e hget
    simp only [stepD] at hget hj
    rw [getElem?_modify_ne _ _ _ _ (by omega)] at hget
    exact h6 j (by omega) e hget
  · simp only [stepD]
    by_cases hne : takeClue clues st.ci = []
    · rw [countP_modify_eq _ _ _ _
        (fun e hg => by have := h6 st.di le_rfl e hg; simp [hasClue, this])
        (fun e hg => by simp [hasClue, hne])]
      omega
    · have hlt := takeClue_lt_of_ne clues st.ci hne
      have hle := countP_modify_le hasClue
        (fun e => { e with clue := takeClue clues st.ci }) st.di st.down
        (fun e hg => by have := h6 st.di le_rfl e hg; simp [hasClue, this])
      omega

/-- One interleaved iteration preserves the assignment invariant. -/
theorem assignInv_interleaveStep (adFirst : Bool) (clues : List (List Nat))
    (lenA lenD : Nat) (st : AssignState) (flags : Bool × Bool)
    (hinv : AssignInv clues lenA lenD st) :
    AssignInv clues lenA lenD (interleaveStep adFirst clues st flags) := by
  rcases flags with ⟨f1, f2⟩
  cases adFirst with
  | false =>
      cases f1 with
      | false =>
          cases f2 with
          | false => simpa [interleaveStep] using hinv
          | true => simpa [interleaveStep] using assignInv_stepD clues lenA lenD st hinv
      | true =>
          cases f2 with
          | false => simpa [interleaveStep] using assignInv_stepA clues lenA lenD st hinv
          | true =>
              simpa [interleaveStep] using assignInv_stepA clues lenA lenD _
                (assignInv_stepD clues lenA lenD st hinv)
  | true =>
      cases f1 with
      | false =>
          cases f2 with
          | false => simpa [interleaveStep] using hinv
          | true => simpa [interleaveStep] using assignInv_stepD clues lenA lenD st hinv
      | true =>
          cases f2 with
          | false => simpa [interleaveStep] using assignInv_stepA clues lenA lenD st hinv
          | true =>
              simpa [interleaveStep] using assignInv_stepD clues lenA lenD _
                (assignInv_stepA clues lenA lenD st hinv)

/-- Folding the interleaved assignment over any flag list preserves the
invariant. -/
theorem assignInv_foldl (adFirst : Bool) (clues : List (List Nat)) (lenA lenD : Nat)
    (fl : List (Bool × Bool)) (st : AssignState)
    (hinv : AssignInv clues lenA lenD st) :
    AssignInv clues lenA lenD (fl.foldl (interleaveStep adFirst clues) st) := by
  induction fl generalizing st with
  | nil => exact hinv
  | cons f fl ih =>
      exact ih _ (assignInv_interleaveStep adFirst clues lenA lenD st f hinv)

/-- The assignment invariant holds at the start of the interleaved loop
when all entries still carry the empty clue. -/
theorem assignInv_init (clues : List (List Nat)) (across down : List Entry)
    (hA : ∀ e ∈ across, e.clue = []) (hD : ∀ e ∈ down, e.clue = []) :
    AssignInv clues across.length down.length ⟨0, 0, 0, across, down⟩ := by
  refine ⟨rfl, rfl, fun e he => Or.inl (hA e he), fun e he => Or.inl (hD e he), ?_, ?_, ?_⟩
  · intro i _ e hget
    exact hA e (List.getElem?_mem hget)
  · intro j _ e hget
    exact hD e (List.getElem?_mem hget)
  · have hca : across.countP hasClue = 0 :=
      List.countP_eq_zero.mpr (fun e he => by simp [hasClue, hA e he])
    have hcd : down.countP hasClue = 0 :=
      List.countP_eq_zero.mpr (fun e he => by simp [hasClue, hD e he])
    show across.countP hasClue + down.countP hasClue
      ≤ min 0 clues.length
    omega

/-- Sequential assignment preserves the list length. -/
theorem assignSeq_length (clues : List (List Nat)) (k : Nat) (es : List Entry) :
    (assignSeq clues k es).length = es.length := by
  induction es generalizing k with
  | nil => rfl
  | cons e es ih => simp [assignSeq, ih]

/-- Sequentially assigned clues are raw clues or empty. -/
theorem assignSeq_mem (clues : List (List Nat)) (k : Nat) (es : List Entry) :
    ∀ e ∈ assignSeq clues k es, e.clue = [] ∨ e.clue ∈ clues := by
  induction es generalizing k with
  | nil => intro e he; cases he
  | cons x xs ih =>
      intro e he
      rcases List.mem_cons.mp he with h | h
      · subst h
        rcases takeClue_eq_or_mem clues k with hh | hh
        · exact Or.inl hh
        · exact Or.inr hh
      · exact ih (k + 1) e h

/-- Sequential assignment starting at slot `k` produces at most
`clues.length - k` non-empty clues (and no more than one per entry). -/
theorem assignSeq_countP (clues : List (List Nat)) (k : Nat) (es : List Entry) :
    (assignSeq clues k es).countP hasClue ≤ es.length ∧
    (assignSeq clues k es).countP hasClue ≤ clues.length - k := by
  induction es generalizing k with
  | nil => simp [assignSeq]
  | cons x xs ih =>
      obtain ⟨ih1, ih2⟩ := ih (k + 1)
      rw [show assignSeq clues k (x :: xs) =
        { x with clue := takeClue clues k } :: assignSeq clues (k + 1) xs from rfl]
      simp only [List.countP_cons, List.length_cons]
      by_cases hne : takeClue clues k = []
      · have hp : hasClue { x with clue := takeClue clues k } = false := by
          simp [hasClue, hne]
        rw [hp, show (if (false = true) then 1 else 0) = 0 from rfl]
        exact ⟨by omega, by omega⟩
      · have hlt := takeClue_lt_of_ne clues k hne
        have hp : hasClue { x with clue := takeClue clues k } = true := by
          simp [hasClue, hne]
        rw [hp, show (if (true = true) then 1 else 0) = 1 from rfl]
        exact ⟨by omega, by omega⟩

/-- **C3.** Under any of the four ordering policies, building the
clue-to-entry assignment never fails on a clue-count mismatch: for every
raw clue list (in particular one exhausted before all entries are
served), both entry lists come back whole (same lengths), every assigned
clue is either a raw clue or the empty string, and at most
`rawClues.length` entries receive a non-empty clue — all remaining
entries keep the empty string. -/
theorem clue_assignment_never_fails (order : ClueOrder) (w hgt : Nat) (blk : Nat → Bool)
    (clues : List (List Nat)) (across down : List Entry)
    (hA : ∀ e ∈ across, e.clue = []) (hD : ∀ e ∈ down, e.clue = []) :
    ((assignClues order w hgt blk clues across down).1.length = across.length) ∧
    ((assignClues order w hgt blk clues across down).2.length = down.length) ∧
    (∀ e ∈ (assignClues order w hgt blk clues across down).1, e.clue = [] ∨ e.clue ∈ clues) ∧
    (∀ e ∈ (assignClues order w hgt blk clues across down).2, e.clue = [] ∨ e.clue ∈ clues) ∧
    ((assignClues order w hgt blk clues across down).1.countP hasClue +
      (assignClues order w hgt blk clues across down).2.countP hasClue
        ≤ clues.length) := by
  cases order with
  | acrossDown =>
      simp only [assignClues]
      refine ⟨assignSeq_length _ _ _, assignSeq_length _ _ _,
        assignSeq_mem _ _ _, assignSeq_mem _ _ _, ?_⟩
      have h1 := assignSeq_countP clues 0 across
      have h2 := assignSeq_countP clues across.length down
      omega
  | downAcross =>
      simp only [assignClues]
      refine ⟨assignSeq_length _ _ _, assignSeq_length _ _ _,
        assignSeq_mem _ _ _, assignSeq_mem _ _ _, ?_⟩
      have h1 := assignSeq_countP clues down.length across
      have h2 := assignSeq_countP clues 0 down
      omega
  | interleavedAD =>
      have hinv := assignInv_foldl true clues across.length down.length
        (startFlags w hgt blk) ⟨0, 0, 0, across, down⟩
        (assignInv_init clues across down hA hD)
      obtain ⟨h1, h2, h3, h4, _, _, h7⟩ := hinv
      refine ⟨h1, h2, h3, h4, ?_⟩
      show ((startFlags w hgt blk).foldl (interleaveStep true clues)
          ⟨0, 0, 0, across, down⟩).across.countP hasClue +
        ((startFlags w hgt blk).foldl (interleaveStep true clues)
          ⟨0, 0, 0, across, down⟩).down.countP hasClue ≤ clues.length
      omega
  | interleavedDA =>
      have hinv := assignInv_foldl false clues across.length down.length
        (startFlags w hgt blk) ⟨0, 0, 0, across, down⟩
        (assignInv_init clues across down hA hD)
      obtain ⟨h1, h2, h3, h4, _, _, h7⟩ := hinv
      refine ⟨h1, h2, h3, h4, ?_⟩
      show ((startFlags w hgt blk).foldl (interleaveStep false clues)
          ⟨0, 0, 0, across, down⟩).across.countP hasClue +
        ((startFlags w hgt blk).foldl (interleaveStep false clues)
          ⟨0, 0, 0, across, down⟩).down.countP hasClue ≤ clues.length
      omega

/-- Witness for C3 on the interleaved-ad policy of a 1-by-1 grid with an
exhausted (empty) raw clue list: both entries come back, clues empty. -/
theorem clue_assignment_never_fails_witness :
    ((assignClues .interleavedAD 1 1 (fun _ => false) []
      [⟨1, [], [0]⟩] [⟨1, [], [0]⟩]).1.length = 1) ∧
    (∀ e ∈ (assignClues .interleavedAD 1 1 (fun _ => false) []
      [⟨1, [], [0]⟩] [⟨1, [], [0]⟩]).1, e.clue = [] ∨ e.clue ∈ ([] : List (List Nat))) := by
  have h := clue_assignment_never_fails .interleavedAD 1 1 (fun _ => false) []
    [⟨1, [], [0]⟩] [⟨1, [], [0]⟩] (by intro e he; simp at he; rw [he])
    (by intro e he; simp at he; rw [he])
  exact ⟨h.1, h.2.2.1⟩

/-- The spec's round-trip buffer: a 3-by-1 grid `ABC` with one clue. -/
def exPuzBytes : List Nat :=
  (List.range 44).map (fun _ => 0) ++ [3, 1, 1, 0] ++ [0, 0, 0, 0] ++
    [65, 66, 67] ++ [45, 45, 45] ++ [84, 0] ++ [65, 0] ++ [67, 0] ++ [84, 101, 115, 116, 0]

/-- Witness for C2 on the concrete round-trip buffer: all checks pass and
decoding succeeds. -/
theorem parsePuz_error_classification_witness :
    ∃ p, parsePuz exPuzBytes .acrossDown = .ok p := by
  have h := (parsePuz_error_classification exPuzBytes .acrossDown (by decide)).2.2.2
  exact h.mpr (by decide)

/-- Witness for C7 on a grid with 2 across and 3 down entries: Tab from
the last across entry lands on the first down entry with mode down, as in
the spec's Tab-wrap test. -/
theorem tab_wraps_across_directions_witness :
    tabKey [⟨1, [], [0, 1]⟩, ⟨2, [], [3, 4]⟩]
        [⟨1, [], [0, 3]⟩, ⟨2, [], [1, 4]⟩, ⟨3, [], [2, 5]⟩]
        ⟨.across, some 3⟩ 3 = ⟨.down, some 0⟩ := by
  have h := (tab_wraps_across_directions [⟨1, [], [0, 1]⟩, ⟨2, [], [3, 4]⟩]
    [⟨1, [], [0, 3]⟩, ⟨2, [], [1, 4]⟩, ⟨3, [], [2, 5]⟩] ⟨.across, some 3⟩ 3 1).1
    (by decide) (by decide)
  exact h.2 (by decide) (by decide) 0 [3] (by decide)

/-! ## Run membership and entry coverage -/

/-- Membership in the cell-collecting loop: the positions
`j, j + stride, …` reached before the fuel runs out with every visited
position (the target included) non-block. -/
theorem mem_runGo (blk : Nat → Bool) (stride : Nat) (f j i : Nat) :
    i ∈ runGo blk stride f j ↔
      ∃ t, t < f ∧ i = j + stride * t ∧ ∀ u, u ≤ t → blk (j + stride * u) = false := by
  induction f generalizing j with
  | zero => simp [runGo]
  | succ f ih =>
      rw [show runGo blk stride (f + 1) j =
        if blk j then [] else j :: runGo blk stride f (j + stride) from rfl]
      by_cases hb : blk j = true
      · rw [if_pos hb]
        simp only [List.not_mem_nil, false_iff, not_exists]
        rintro t ⟨ht, hi, hall⟩
        have h0 := hall 0 (Nat.zero_le t)
        rw [Nat.mul_zero, Nat.add_zero] at h0
        rw [hb] at h0
        cases h0
      · rw [if_neg hb]
        have hbf : blk j = false := by
          cases hbj : blk j
          · rfl
          · exact absurd hbj hb
        simp only [List.mem_cons, ih]
        constructor
        · rintro (rfl | ⟨t, ht, hi, hall⟩)
          · refine ⟨0, by omega, by simp, ?_⟩
            intro u hu
            have hu0 : u = 0 := Nat.le_zero.mp hu
            subst hu0
            simpa using hbf
          · refine ⟨t + 1, by omega, ?_, ?_⟩
            · have hm : stride * (t + 1) = stride * t + stride := by ring
              omega
            · intro u hu
              cases u with
              | zero => simpa using hbf
              | succ u =>
                  have hx := hall u (by omega)
                  have heq : j + stride * (u + 1) = j + stride + stride * u := by
                    have hm : stride * (u + 1) = stride * u + stride := by ring
                    omega
                  rw [heq]
                  exact hx
        · rintro ⟨t, ht, hi, hall⟩
          cases t with
          | zero =>
              left
              rw [Nat.mul_zero, Nat.add_zero] at hi
              exact hi
          | succ t =>
              right
              refine ⟨t, by omega, ?_, ?_⟩
              · have hm : stride * (t + 1) = stride * t + stride := by ring
                omega
              · intro u hu
                have hx := hall (u + 1) (by omega)
                have heq : j + stride + stride * u = j + stride * (u + 1) := by
                  have hm : stride * (u + 1) = stride * u + stride := by ring
                  omega
                rw [heq]
                exact hx

/-- The collected run is strictly increasing (for a positive stride),
hence duplicate-free. -/
theorem runGo_pairwise (blk : Nat → Bool) (stride : Nat) (hs : 0 < stride) (f j : Nat) :
    (runGo blk stride f j).Pairwise (· < ·) := by
  induction f generalizing j with
  | zero => simp [runGo]
  | succ f ih =>
      rw [show runGo blk stride (f + 1) j =
        if blk j then [] else j :: runGo blk stride f (j + stride) from rfl]
      by_cases hb : blk j = true
      · rw [if_pos hb]; exact List.Pairwise.nil
      · rw [if_neg hb]
        refine List.Pairwise.cons ?_ (ih (j + stride))
        intro x hx
        rcases (mem_runGo blk stride f (j + stride) x).mp hx with ⟨t, _, hxi, _⟩
        have : 0 ≤ stride * t := Nat.zero_le _
        omega

/-- A cell index occurs at most once in a run. -/
theorem count_runGo (blk : Nat → Bool) (stride : Nat) (hs : 0 < stride) (f j i : Nat) :
    (runGo blk stride f j).count i = if i ∈ runGo blk stride f j then 1 else 0 := by
  have hnd : (runGo blk stride f j).Nodup :=
    (runGo_pairwise blk stride hs f j).imp Nat.ne_of_lt
  by_cases hm : i ∈ runGo blk stride f j
  · rw [if_pos hm]
    exact List.count_eq_one_of_mem hnd hm
  · rw [if_neg hm]
    exact List.count_eq_zero.mpr hm

/-- Membership in an across run: the same-row interval from the start to
the row edge, all of it non-block. -/
theorem mem_runA (w : Nat) (blk : Nat → Bool) (s i : Nat) :
    i ∈ runA w blk s ↔
      (s ≤ i ∧ i - s < w - s % w ∧ ∀ u, s ≤ u → u ≤ i → blk u = false) := by
  rw [runA, mem_runGo]
  constructor
  · rintro ⟨t, ht, hi, hall⟩
    rw [Nat.one_mul] at hi
    refine ⟨by omega, by omega, ?_⟩
    intro u hsu hui
    have := hall (u - s) (by omega)
    rw [Nat.one_mul] at this
    have heq : s + (u - s) = u := by omega
    rw [heq] at this
    exact this
  · rintro ⟨hsi, hlt, hall⟩
    refine ⟨i - s, by omega, by omega, ?_⟩
    intro u hu
    rw [Nat.one_mul]
    exact hall (s + u) (by omega) (by omega)

/-- Membership in a down run: the same-column positions below the start,
within the grid height, all of them non-block. -/
theorem mem_runD (w hgt : Nat) (blk : Nat → Bool) (s i : Nat) :
    i ∈ runD w hgt blk s ↔
      ∃ t, t < hgt - s / w ∧ i = s + w * t ∧ ∀ u, u ≤ t → blk (s + w * u) = false :=
  mem_runGo blk w (hgt - s / w) s i

/-- The start of the across run containing a given open cell: step left
until the column is 0 or the left neighbour is a block. -/
def sAof (w : Nat) (blk : Nat → Bool) : Nat → Nat
  | 0 => 0
  | j + 1 => if (j + 1) % w == 0 || blk j then j + 1 else sAof w blk j

/-- For an open cell, `sAof` lands on an across start in the same row,
with every cell between it and the given cell open. -/
theorem sAof_spec (w : Nat) (blk : Nat → Bool) (hw : 0 < w) (i : Nat)
    (hb : blk i = false) :
    sAof w blk i ≤ i ∧ (sAof w blk i) / w = i / w ∧ saB w blk (sAof w blk i) = true ∧
      ∀ u, sAof w blk i ≤ u → u ≤ i → blk u = false := by
  induction i with
  | zero =>
      refine ⟨le_rfl, rfl, ?_, ?_⟩
      · simp [sAof, saB, Nat.zero_mod]
      · intro u h1 h2
        have : u = 0 := by omega
        subst this
        exact hb
  | succ i ih =>
      by_cases hc : ((i + 1) % w == 0 || blk i) = true
      · rw [show sAof w blk (i + 1) = i + 1 from by rw [sAof, if_pos hc]]
        refine ⟨le_rfl, rfl, ?_, ?_⟩
        · rw [saB]
          simpa using hc
        · intro u h1 h2
          have : u = i + 1 := by omega
          subst this
          exact hb
      · rw [show sAof w blk (i + 1) = sAof w blk i from by rw [sAof, if_neg hc]]
        have hcf := hc
        rw [Bool.or_eq_true, not_or] at hcf
        have hmod : ¬ (i + 1) % w = 0 := by
          intro hz
          exact hcf.1 (by simpa using hz)
        have hbi : blk i = false := by
          cases hbb : blk i
          · rfl
          · exact absurd hbb hcf.2
        obtain ⟨ih1, ih2, ih3, ih4⟩ := ih hbi
        have hdiv : (i + 1) / w = i / w := by
          rw [Nat.succ_div, if_neg (fun hd => hmod ((Nat.mod_eq_zero_of_dvd hd)))]
          omega
        refine ⟨by omega, by rw [ih2, hdiv], ih3, ?_⟩
        intro u h1 h2
        rcases Nat.lt_succ_iff_lt_or_eq.mp (Nat.lt_succ_of_le h2) with h | h
        · exact ih4 u h1 (by omega)
        · subst h
          exact hb

/-- Any across start whose run contains `i` is `sAof i`. -/
theorem sAof_unique (w : Nat) (blk : Nat → Bool) (hw : 0 < w) (i : Nat)
    (hb : blk i = false) :
    ∀ s, saB w blk s = true → i ∈ runA w blk s → s = sAof w blk i := by
  induction i with
  | zero =>
      intro s _ hmem
      rcases (mem_runA w blk s 0).mp hmem with ⟨h1, _, _⟩
      have hs0 : s = 0 := by omega
      subst hs0
      rfl
  | succ i ih =>
      intro s hsa hmem
      rcases (mem_runA w blk s (i + 1)).mp hmem with ⟨h1, h2, h3⟩
      by_cases hc : ((i + 1) % w == 0 || blk i) = true
      · rw [show sAof w blk (i + 1) = i + 1 from by rw [sAof, if_pos hc]]
        by_contra hne
        have hsl : s ≤ i := by omega
        have hbi : blk i = false := h3 i hsl (by omega)
        have hmod : (i + 1) % w = 0 := by
          rw [Bool.or_eq_true] at hc
          rcases hc with hc | hc
          · simpa using hc
          · rw [hbi] at hc; cases hc
        -- i + 1 is a multiple of w strictly inside s's row: impossible
        have hds := Nat.div_add_mod s w
        have hdi := Nat.div_add_mod (i + 1) w
        rw [hmod, Nat.add_zero] at hdi
        have hsm : s % w < w := Nat.mod_lt s hw
        -- from h2 : (i+1) - s < w - s % w
        have hup : i + 1 < w * (s / w) + w := by omega
        have hlo : w * (s / w) ≤ s := by omega
        have hqlt : s / w < (i + 1) / w := by
          apply Nat.lt_of_mul_lt_mul_left (a := w)
          omega
        have hqlt2 : (i + 1) / w < s / w + 1 := by
          apply Nat.lt_of_mul_lt_mul_left (a := w)
          have : w * (s / w + 1) = w * (s / w) + w := by ring
          omega
        omega
      · rw [show sAof w blk (i + 1) = sAof w blk i from by rw [sAof, if_neg hc]]
        have hcf := hc
        rw [Bool.or_eq_true, not_or] at hcf
        have hbi : blk i = false := by
          cases hbb : blk i
          · rfl
          · exact absurd hbb hcf.2
        have hsne : s ≠ i + 1 := by
          intro he
          subst he
          rw [saB] at hsa
          exact hc hsa
        have hsl : s ≤ i := by omega
        apply ih hbi s hsa
        rw [mem_runA]
        exact ⟨hsl, by omega, fun u hu1 hu2 => h3 u hu1 (by omega)⟩

/-- The start of the down run containing a given open cell: step up by a
row until row 0 or a block above; the fuel only needs to cover the number
of upward steps. -/
def sDof (w : Nat) (blk : Nat → Bool) : Nat → Nat → Nat
  | 0, j => j
  | f + 1, j => if decide (j < w) || blk (j - w) then j else sDof w blk f (j - w)

/-- For an open cell, `sDof` (with enough fuel) lands on a down start in
the same column, every cell between it and the given cell (stepping by
`w`) open. -/
theorem sDof_spec (w : Nat) (blk : Nat → Bool) (hw : 0 < w) (f : Nat) : ∀ j,
    blk j = false → j ≤ w * f →
    sDof w blk f j ≤ j ∧ sdB w blk (sDof w blk f j) = true ∧
      ∃ k, j = sDof w blk f j + w * k ∧
        ∀ u, u ≤ k → blk (sDof w blk f j + w * u) = false := by
  induction f with
  | zero =>
      intro j hb hle
      have hj : j = 0 := by omega
      subst hj
      rw [show sDof w blk 0 0 = 0 from rfl]
      refine ⟨le_rfl, ?_, 0, by omega, ?_⟩
      · rw [sdB]
        simp [hw]
      · intro u hu
        have : u = 0 := by omega
        subst this
        simpa using hb
  | succ f ih =>
      intro j hb hle
      by_cases hc : (decide (j < w) || blk (j - w)) = true
      · rw [show sDof w blk (f + 1) j = j from by rw [sDof, if_pos hc]]
        refine ⟨le_rfl, by rw [sdB, hc], 0, by omega, ?_⟩
        intro u hu
        have : u = 0 := by omega
        subst this
        simpa using hb
      · rw [show sDof w blk (f + 1) j = sDof w blk f (j - w) from by rw [sDof, if_neg hc]]
        have hcf := hc
        rw [Bool.or_eq_true, not_or] at hcf
        have hjw : w ≤ j := by
          rcases Nat.lt_or_ge j w with h | h
          · exact absurd (by simpa using h) hcf.1
          · exact h
        have hbw : blk (j - w) = false := by
          cases hbb : blk (j - w)
          · rfl
          · exact absurd hbb hcf.2
        have hwf : w * (f + 1) = w * f + w := by ring
        obtain ⟨ih1, ih2, k, ihk, ihall⟩ := ih (j - w) hbw (by omega)
        refine ⟨by omega, ih2, k + 1, ?_, ?_⟩
        · have hm : w * (k + 1) = w * k + w := by ring
          omega
        · intro u hu
          rcases Nat.lt_succ_iff_lt_or_eq.mp (Nat.lt_succ_of_le hu) with h | h
          · exact ihall u (by omega)
          · subst h
            have hm : w * (k + 1) = w * k + w := by ring
            have heq : sDof w blk f (j - w) + w * (k + 1) = j := by omega
            rw [heq]
            exact hb

/-- Any down start whose run contains `j` is `sDof j` (with enough fuel). -/
theorem sDof_unique (w hgt : Nat) (blk : Nat → Bool) (hw : 0 < w) (f : Nat) : ∀ j,
    blk j = false → j ≤ w * f →
    ∀ s, sdB w blk s = true → j ∈ runD w hgt blk s → s = sDof w blk f j := by
  induction f with
  | zero =>
      intro j hb hle s hsd hmem
      have hj : j = 0 := by omega
      subst hj
      rcases (mem_runD w hgt blk s 0).mp hmem with ⟨t, _, h2, _⟩
      have : s = 0 := by omega
      simpa [sDof] using this
  | succ f ih =>
      intro j hb hle s hsd hmem
      rcases (mem_runD w hgt blk s j).mp hmem with ⟨t, ht, hjs, hall⟩
      by_cases hc : (decide (j < w) || blk (j - w)) = true
      · rw [show sDof w blk (f + 1) j = j from by rw [sDof, if_pos hc]]
        by_contra hne
        have ht1 : 1 ≤ t := by
          rcases Nat.eq_zero_or_pos t with h | h
          · subst h
            exact absurd (by omega : s = j) hne
          · exact h
        have hjge : w ≤ j := by
          have : 0 ≤ w * (t - 1) := Nat.zero_le _
          have hm : w * t = w * (t - 1) + w := by
            have : t - 1 + 1 = t := by omega
            calc w * t = w * (t - 1 + 1) := by rw [this]
            _ = w * (t - 1) + w := by ring
          omega
        have hjwb : blk (j - w) = false := by
          have := hall (t - 1) (by omega)
          have hm : w * t = w * (t - 1) + w := by
            have h1 : t - 1 + 1 = t := by omega
            calc w * t = w * (t - 1 + 1) := by rw [h1]
            _ = w * (t - 1) + w := by ring
          have heq : s + w * (t - 1) = j - w := by omega
          rw [heq] at this
          exact this
        rw [Bool.or_eq_true] at hc
        rcases hc with hc | hc
        · have : j < w := by simpa using hc
          omega
        · rw [hjwb] at hc
          cases hc
      · rw [show sDof w blk (f + 1) j = sDof w blk f (j - w) from by rw [sDof, if_neg hc]]
        have hcf := hc
        rw [Bool.or_eq_true, not_or] at hcf
        have hjw : w ≤ j := by
          rcases Nat.lt_or_ge j w with h | h
          · exact absurd (by simpa using h) hcf.1
          · exact h
        have hbw : blk (j - w) = false := by
          cases hbb : blk (j - w)
          · rfl
          · exact absurd hbb hcf.2
        have hsne : s ≠ j := by
          intro he
          subst he
          rw [sdB] at hsd
          exact hc hsd
        have ht1 : 1 ≤ t := by
          rcases Nat.eq_zero_or_pos t with h | h
          · subst h
            exact absurd (by omega : s = j) hsne
          · exact h
        have hwf : w * (f + 1) = w * f + w := by ring
        apply ih (j - w) hbw (by omega) s hsd
        rw [mem_runD]
        have hm : w * t = w * (t - 1) + w := by
          have h1 : t - 1 + 1 = t := by omega
          calc w * t = w * (t - 1 + 1) := by rw [h1]
          _ = w * (t - 1) + w := by ring
        refine ⟨t - 1, by omega, by omega, ?_⟩
        intro u hu
        exact hall u (by omega)

/-- Dropping the numbering: the cell lists of the entries built from the
enumerated start list are the runs of the starts that pass the flag. -/
theorem enumFrom_filterMap_cells (p : Nat → Bool) (run : Nat → List Nat)
    (l : List Nat) (n : Nat) :
    (((List.enumFrom n l).filterMap
        (fun q => if p q.2 then some (⟨q.1 + 1, [], run q.2⟩ : Entry) else none)).map
          (fun e => e.cells))
      = (l.filter p).map run := by
  induction l generalizing n with
  | nil => rfl
  | cons x xs ih =>
      rw [List.enumFrom_cons, List.filterMap_cons]
      cases hp : p x with
      | true => simp [hp, ih (n + 1)]
      | false => simp [hp, ih (n + 1)]

/-- The flattened cell lists of an entry list, as a sum of per-entry
counts. -/
theorem count_flat_cells (entries : List Entry) (i : Nat) :
    (entries.flatMap (fun e => e.cells)).count i =
      ((entries.map (fun e => e.cells)).map (List.count i)).sum := by
  rw [List.count_flatMap, List.map_map]

/-- A sum of 0/1 indicators over a list counts the distinguished element. -/
theorem sum_map_ite_eq_count (s0 : Nat) (l : List Nat) (f : Nat → Nat)
    (hf : ∀ s ∈ l, f s = if s = s0 then 1 else 0) :
    (l.map f).sum = l.count s0 := by
  induction l with
  | nil => rfl
  | cons x xs ih =>
      rw [List.map_cons, List.sum_cons, List.count_cons,
        ih (fun s hs => hf s (List.mem_cons_of_mem x hs)),
        hf x (List.mem_cons_self x xs)]
      by_cases hx : x = s0
      · subst hx
        simp [Nat.add_comm]
      · have hb : (x == s0) = false := by
          rw [beq_eq_false_iff_ne]; exact hx
        simp [hx, hb]

/-- An open cell lies in the across run of `sAof` of its row. -/
theorem mem_runA_sAof (w : Nat) (blk : Nat → Bool) (hw : 0 < w) (i : Nat)
    (hb : blk i = false) : i ∈ runA w blk (sAof w blk i) := by
  obtain ⟨h1, h2, _, h4⟩ := sAof_spec w blk hw i hb
  rw [mem_runA]
  refine ⟨h1, ?_, h4⟩
  have hd1 := Nat.div_add_mod i w
  have hd2 := Nat.div_add_mod (sAof w blk i) w
  have hm1 : i % w < w := Nat.mod_lt i hw
  have hm2 : sAof w blk i % w < w := Nat.mod_lt _ hw
  have hrow : w * (sAof w blk i / w) = w * (i / w) := by rw [h2]
  omega

/-- `sAof` of an open grid cell is a member of the start list and starts
an across entry. -/
theorem sAof_mem_starts (w hgt : Nat) (blk : Nat → Bool) (hw : 0 < w) (i : Nat)
    (hi : i < w * hgt) (hb : blk i = false) :
    sAof w blk i ∈ (startsRaw w hgt blk).filter (saB w blk) := by
  obtain ⟨h1, _, h3, h4⟩ := sAof_spec w blk hw i hb
  have hsb : blk (sAof w blk i) = false := h4 _ le_rfl h1
  rw [List.mem_filter]
  refine ⟨?_, h3⟩
  rw [startsRaw, List.mem_filter, List.mem_range]
  refine ⟨by omega, ?_⟩
  rw [hsb, h3]
  rfl

/-- Per-start indicator for the across count at an open cell. -/
theorem count_runA_indicator (w hgt : Nat) (blk : Nat → Bool) (hw : 0 < w) (i : Nat)
    (hb : blk i = false) :
    ∀ s ∈ (startsRaw w hgt blk).filter (saB w blk),
      (runA w blk s).count i = if s = sAof w blk i then 1 else 0 := by
  intro s hs
  rw [List.mem_filter] at hs
  rw [runA, count_runGo blk 1 (by omega)]
  by_cases hse : s = sAof w blk i
  · subst hse
    rw [if_pos (by rw [← runA]; exact mem_runA_sAof w blk hw i hb), if_pos rfl]
  · rw [if_neg ?_, if_neg hse]
    intro hmem
    exact hse (sAof_unique w blk hw i hb s hs.2 (by rw [runA]; exact hmem))

/-- The across entries cover every open cell exactly once. -/
theorem count_across_open (w hgt : Nat) (blk : Nat → Bool) (i : Nat)
    (hi : i < w * hgt) (hb : blk i = false) :
    ((acrossEntries w hgt blk).flatMap (fun e => e.cells)).count i = 1 := by
  have hw : 0 < w := by
    rcases Nat.eq_zero_or_pos w with h | h
    · subst h; simp at hi
    · exact h
  have hA : (acrossEntries w hgt blk).map (fun e => e.cells) =
      ((startsRaw w hgt blk).filter (saB w blk)).map (runA w blk) :=
    enumFrom_filterMap_cells (saB w blk) (runA w blk) (startsRaw w hgt blk) 0
  rw [count_flat_cells, hA, List.map_map]
  have hsum := sum_map_ite_eq_count (sAof w blk i)
    ((startsRaw w hgt blk).filter (saB w blk)) (List.count i ∘ runA w blk)
    (fun s hs => count_runA_indicator w hgt blk hw i hb s hs)
  rw [hsum]
  apply List.count_eq_one_of_mem
  · exact ((List.nodup_range _).filter _).filter _
  · exact sAof_mem_starts w hgt blk hw i hi hb

/-- Block cells appear in no across run. -/
theorem count_across_block (w hgt : Nat) (blk : Nat → Bool) (i : Nat)
    (hb : blk i = true) :
    ((acrossEntries w hgt blk).flatMap (fun e => e.cells)).count i = 0 := by
  have hA : (acrossEntries w hgt blk).map (fun e => e.cells) =
      ((startsRaw w hgt blk).filter (saB w blk)).map (runA w blk) :=
    enumFrom_filterMap_cells (saB w blk) (runA w blk) (startsRaw w hgt blk) 0
  rw [count_flat_cells, hA, List.map_map]
  apply List.sum_eq_zero
  intro x hx
  rw [List.mem_map] at hx
  obtain ⟨s, _, rfl⟩ := hx
  show (runA w blk s).count i = 0
  rw [List.count_eq_zero]
  intro hmem
  rcases (mem_runA w blk s i).mp hmem with ⟨h1, _, h3⟩
  have := h3 i h1 le_rfl
  rw [hb] at this
  cases this

/-- An open cell lies in the down run of `sDof` of its column. -/
theorem mem_runD_sDof (w hgt : Nat) (blk : Nat → Bool) (hw : 0 < w) (j : Nat)
    (hj : j < w * hgt) (hb : blk j = false) :
    j ∈ runD w hgt blk (sDof w blk j j) := by
  have hfuel : j ≤ w * j := Nat.le_mul_of_pos_left j hw
  obtain ⟨h1, h2, k, hk, hall⟩ := sDof_spec w blk hw j j hb hfuel
  rw [mem_runD]
  refine ⟨k, ?_, hk, hall⟩
  have hdiv : j / w = sDof w blk j j / w + k := by
    conv_lhs => rw [hk]
    rw [Nat.add_mul_div_left _ _ hw]
  have hjh : j / w < hgt := by
    rw [Nat.div_lt_iff_lt_mul hw, Nat.mul_comm hgt w]
    exact hj
  omega

/-- `sDof` of an open grid cell is a member of the start list and starts
a down entry. -/
theorem sDof_mem_starts (w hgt : Nat) (blk : Nat → Bool) (hw : 0 < w) (j : Nat)
    (hj : j < w * hgt) (hb : blk j = false) :
    sDof w blk j j ∈ (startsRaw w hgt blk).filter (sdB w blk) := by
  have hfuel : j ≤ w * j := Nat.le_mul_of_pos_left j hw
  obtain ⟨h1, h2, k, hk, hall⟩ := sDof_spec w blk hw j j hb hfuel
  have hsb : blk (sDof w blk j j) = false := by
    have := hall 0 (Nat.zero_le k)
    simpa using this
  rw [List.mem_filter]
  refine ⟨?_, h2⟩
  rw [startsRaw, List.mem_filter, List.mem_range]
  refine ⟨by omega, ?_⟩
  rw [hsb, h2]
  simp

/-- Per-start indicator for the down count at an open cell. -/
theorem count_runD_indicator (w hgt : Nat) (blk : Nat → Bool) (hw : 0 < w) (j : Nat)
    (hj : j < w * hgt) (hb : blk j = false) :
    ∀ s ∈ (startsRaw w hgt blk).filter (sdB w blk),
      (runD w hgt blk s).count j = if s = sDof w blk j j then 1 else 0 := by
  intro s hs
  rw [List.mem_filter] at hs
  rw [runD, count_runGo blk w hw]
  have hfuel : j ≤ w * j := Nat.le_mul_of_pos_left j hw
  by_cases hse : s = sDof w blk j j
  · subst hse
    rw [if_pos (by rw [← runD]; exact mem_runD_sDof w hgt blk hw j hj hb), if_pos rfl]
  · rw [if_neg ?_, if_neg hse]
    intro hmem
    exact hse (sDof_unique w hgt blk hw j j hb hfuel s hs.2 (by rw [runD]; exact hmem))

/-- The down entries cover every open cell exactly once. -/
theorem count_down_open (w hgt : Nat) (blk : Nat → Bool) (j : Nat)
    (hj : j < w * hgt) (hb : blk j = false) :
    ((downEntries w hgt blk).flatMap (fun e => e.cells)).count j = 1 := by
  have hw : 0 < w := by
    rcases Nat.eq_zero_or_pos w with h | h
    · subst h; simp at hj
    · exact h
  have hD : (downEntries w hgt blk).map (fun e => e.cells) =
      ((startsRaw w hgt blk).filter (sdB w blk)).map (runD w hgt blk) :=
    enumFrom_filterMap_cells (sdB w blk) (runD w hgt blk) (startsRaw w hgt blk) 0
  rw [count_flat_cells, hD, List.map_map]
  have hsum := sum_map_ite_eq_count (sDof w blk j j)
    ((startsRaw w hgt blk).filter (sdB w blk)) (List.count j ∘ runD w hgt blk)
    (fun s hs => count_runD_indicator w hgt blk hw j hj hb s hs)
  rw [hsum]
  apply List.count_eq_one_of_mem
  · exact ((List.nodup_range _).filter _).filter _
  · exact sDof_mem_starts w hgt blk hw j hj hb

/-- Block cells appear in no down run. -/
theorem count_down_block (w hgt : Nat) (blk : Nat → Bool) (j : Nat)
    (hb : blk j = true) :
    ((downEntries w hgt blk).flatMap (fun e => e.cells)).count j = 0 := by
  have hD : (downEntries w hgt blk).map (fun e => e.cells) =
      ((startsRaw w hgt blk).filter (sdB w blk)).map (runD w hgt blk) :=
    enumFrom_filterMap_cells (sdB w blk) (runD w hgt blk) (startsRaw w hgt blk) 0
  rw [count_flat_cells, hD, List.map_map]
  apply List.sum_eq_zero
  intro x hx
  rw [List.mem_map] at hx
  obtain ⟨s, _, rfl⟩ := hx
  show (runD w hgt blk s).count j = 0
  rw [List.count_eq_zero]
  intro hmem
  rcases (mem_runD w hgt blk s j).mp hmem with ⟨t, _, hjt, hall⟩
  have := hall t le_rfl
  rw [← hjt, hb] at this
  cases this

/-- **C6.** For every grid, every non-block cell index appears in exactly
one across entry's cell list and in exactly one down entry's cell list
(the count over the flattened cell lists is exactly one, so single-cell
entries are included and no entry repeats a cell), and block cells appear
in no entry. -/
theorem entry_coverage (w hgt : Nat) (blk : Nat → Bool) (i : Nat) (hi : i < w * hgt) :
    (blk i = false →
      ((acrossEntries w hgt blk).flatMap (fun e => e.cells)).count i = 1 ∧
      ((downEntries w hgt blk).flatMap (fun e => e.cells)).count i = 1) ∧
    (blk i = true →
      ((acrossEntries w hgt blk).flatMap (fun e => e.cells)).count i = 0 ∧
      ((downEntries w hgt blk).flatMap (fun e => e.cells)).count i = 0) :=
  ⟨fun hb => ⟨count_across_open w hgt blk i hi hb, count_down_open w hgt blk i hi hb⟩,
   fun hb => ⟨count_across_block w hgt blk i hb, count_down_block w hgt blk i hb⟩⟩

/-- The block map of the witness grid for C6: a 2-by-2 grid whose cell 1
is a block. -/
def exBlk : Nat → Bool := fun i => [false, true, false, false].getD i true

/-- Witness for C6 at cell 0 of the 2-by-2 one-block grid. -/
theorem entry_coverage_witness :
    ((acrossEntries 2 2 exBlk).flatMap (fun e => e.cells)).count 0 = 1 ∧
    ((downEntries 2 2 exBlk).flatMap (fun e => e.cells)).count 0 = 1 :=
  (entry_coverage 2 2 exBlk 0 (by decide)).1 (by decide)

/-! ## Numbering -/

/-- Membership in the numbered entry list: every entry comes from a
position `k` of the start list whose flag holds, and carries number
`n + k + 1`. -/
theorem mem_enumFrom_filterMap (p : Nat → Bool) (run : Nat → List Nat)
    (l : List Nat) (n : Nat) (e : Entry)
    (he : e ∈ (List.enumFrom n l).filterMap
      (fun q => if p q.2 then some (⟨q.1 + 1, [], run q.2⟩ : Entry) else none)) :
    ∃ k x, l[k]? = some x ∧ p x = true ∧ e = ⟨n + k + 1, [], run x⟩ := by
  induction l generalizing n with
  | nil => cases he
  | cons y ys ih =>
      rw [List.enumFrom_cons, List.filterMap_cons] at he
      by_cases hp : p y = true
      · rw [if_pos hp] at he
        rcases List.mem_cons.mp he with h | h
        · exact ⟨0, y, List.getElem?_cons_zero, hp, by simpa using h⟩
        · rcases ih (n + 1) h with ⟨k, x, hk, hx, hee⟩

          exact ⟨k + 1, x, by rw [List.getElem?_cons_succ]; exact hk, hx,
            by rw [hee]; congr 1; omega⟩
      · rw [if_neg hp] at he
        rcases ih (n + 1) he with ⟨k, x, hk, hx, hee⟩
        exact ⟨k + 1, x, by rw [List.getElem?_cons_succ]; exact hk, hx,
          by rw [hee]; congr 1; omega⟩

/-- Conversely, every flagged position of the start list contributes its
numbered entry. -/
theorem enumFrom_filterMap_mem (p : Nat → Bool) (run : Nat → List Nat)
    (l : List Nat) (n k x : Nat) (hk : l[k]? = some x) (hp : p x = true) :
    (⟨n + k + 1, [], run x⟩ : Entry) ∈ (List.enumFrom n l).filterMap
      (fun q => if p q.2 then some (⟨q.1 + 1, [], run q.2⟩ : Entry) else none) := by
  induction l generalizing n k with
  | nil => cases hk
  | cons y ys ih =>
      rw [List.enumFrom_cons, List.filterMap_cons]
      cases k with
      | zero =>
          rw [List.getElem?_cons_zero] at hk
          have hxy : y = x := Option.some.inj hk
          subst hxy
          rw [if_pos hp]
          exact List.mem_cons_self _ _
      | succ k =>
          rw [List.getElem?_cons_succ] at hk
          have hmem := ih (n + 1) k hk
          have heq : n + 1 + k + 1 = n + (k + 1) + 1 := by omega
          rw [heq] at hmem
          by_cases hpy : p y = true
          · rw [if_pos hpy]
            exact List.mem_cons_of_mem _ hmem
          · rw [if_neg hpy]
            exact hmem

/-- Every entry built from `enumFrom n` has number at least `n + 1`. -/
theorem enumFrom_filterMap_number_lb (p : Nat → Bool) (run : Nat → List Nat)
    (l : List Nat) (n : Nat) (e : Entry)
    (he : e ∈ (List.enumFrom n l).filterMap
      (fun q => if p q.2 then some (⟨q.1 + 1, [], run q.2⟩ : Entry) else none)) :
    n + 1 ≤ e.number := by
  rcases mem_enumFrom_filterMap p run l n e he with ⟨k, x, _, _, hee⟩
  rw [hee]
  show n + 1 ≤ n + k + 1
  omega

/-- Entry numbers strictly increase along the built entry list. -/
theorem enumFrom_filterMap_numbers_lt (p : Nat → Bool) (run : Nat → List Nat)
    (l : List Nat) (n : Nat) :
    (((List.enumFrom n l).filterMap
      (fun q => if p q.2 then some (⟨q.1 + 1, [], run q.2⟩ : Entry) else none)).map
        (fun e => e.number)).Pairwise (· < ·) := by
  induction l generalizing n with
  | nil => exact List.Pairwise.nil
  | cons y ys ih =>
      rw [List.enumFrom_cons, List.filterMap_cons]
      by_cases hp : p y = true
      · rw [if_pos hp, List.map_cons]
        refine List.Pairwise.cons ?_ (ih (n + 1))
        intro m hm
        rcases List.mem_map.mp hm with ⟨e, he, rfl⟩
        have := enumFrom_filterMap_number_lb p run ys (n + 1) e he
        show n + 1 < e.number
        omega
      · rw [if_neg hp]
        exact ih (n + 1)

/-- The first cell of an across run is its start. -/
theorem runA_head (w : Nat) (blk : Nat → Bool) (hw : 0 < w) (x : Nat)
    (hb : blk x = false) : (runA w blk x).head? = some x := by
  have hm : x % w < w := Nat.mod_lt x hw
  rw [runA]
  rcases hf : w - x % w with _ | f
  · omega
  · rw [show runGo blk 1 (f + 1) x = if blk x then [] else x :: runGo blk 1 f (x + 1)
      from rfl, if_neg (by rw [hb]; exact Bool.false_ne_true)]
    rfl

/-- The first cell of a down run is its start. -/
theorem runD_head (w hgt : Nat) (blk : Nat → Bool) (hw : 0 < w) (x : Nat)
    (hx : x < w * hgt) (hb : blk x = false) : (runD w hgt blk x).head? = some x := by
  have hdiv : x / w < hgt := by
    rw [Nat.div_lt_iff_lt_mul hw, Nat.mul_comm hgt w]
    exact hx
  rw [runD]
  rcases hf : hgt - x / w with _ | f
  · omega
  · rw [show runGo blk w (f + 1) x = if blk x then [] else x :: runGo blk w f (x + w)
      from rfl, if_neg (by rw [hb]; exact Bool.false_ne_true)]
    rfl

/-- Members of the start list are open in-range cells that start an
entry. -/
theorem startsRaw_mem_spec (w hgt : Nat) (blk : Nat → Bool) (x : Nat)
    (hx : x ∈ startsRaw w hgt blk) :
    x < w * hgt ∧ blk x = false ∧ (saB w blk x = true ∨ sdB w blk x = true) := by
  rw [startsRaw, List.mem_filter, List.mem_range] at hx
  obtain ⟨h1, h2⟩ := hx
  rw [Bool.and_eq_true, Bool.not_eq_eq_eq_not, Bool.not_true, Bool.or_eq_true] at h2
  exact ⟨h1, h2.1, h2.2⟩

/-- The start list has no duplicates. -/
theorem startsRaw_nodup (w hgt : Nat) (blk : Nat → Bool) :
    (startsRaw w hgt blk).Nodup := (List.nodup_range _).filter _

/-- **C5.** Entry numbering is a single row-major scan assigning
sequential integers from 1: the numbers of the across entries (and of the
down entries) strictly increase in scan order, every entry's number lies
in `[1, number of start positions]`, every number in that interval is
used by an across or a down entry (none skipped, none repeated — strict
increase forbids repeats), and a cell that starts both an across and a
down entry gives both entries one shared number (entries with the same
first cell have equal numbers). -/
theorem numbering_sequential_shared (w hgt : Nat) (blk : Nat → Bool) (a d : Entry)
    (ha : a ∈ acrossEntries w hgt blk) (hd : d ∈ downEntries w hgt blk) :
    ((acrossEntries w hgt blk).map (fun e => e.number)).Pairwise (· < ·) ∧
    ((downEntries w hgt blk).map (fun e => e.number)).Pairwise (· < ·) ∧
    (1 ≤ a.number ∧ a.number ≤ (startsRaw w hgt blk).length) ∧
    (1 ≤ d.number ∧ d.number ≤ (startsRaw w hgt blk).length) ∧
    (∀ m, 1 ≤ m → m ≤ (startsRaw w hgt blk).length →
      m ∈ (acrossEntries w hgt blk).map (fun e => e.number) ∨
      m ∈ (downEntries w hgt blk).map (fun e => e.number)) ∧
    (a.cells.head? = d.cells.head? → a.number = d.number) := by
  rcases mem_enumFrom_filterMap (saB w blk) (runA w blk) (startsRaw w hgt blk) 0 a ha
    with ⟨kA, xA, hkA, hpA, haE⟩
  rcases mem_enumFrom_filterMap (sdB w blk) (runD w hgt blk) (startsRaw w hgt blk) 0 d hd
    with ⟨kD, xD, hkD, hpD, hdE⟩
  obtain ⟨hkAlt, hkAeq⟩ := List.getElem?_eq_some.mp hkA
  obtain ⟨hkDlt, hkDeq⟩ := List.getElem?_eq_some.mp hkD
  have hxAmem : xA ∈ startsRaw w hgt blk := List.getElem?_mem hkA
  have hxDmem : xD ∈ startsRaw w hgt blk := List.getElem?_mem hkD
  obtain ⟨hxAlt, hxAb, _⟩ := startsRaw_mem_spec w hgt blk xA hxAmem
  obtain ⟨hxDlt, hxDb, _⟩ := startsRaw_mem_spec w hgt blk xD hxDmem
  have hw : 0 < w := by
    rcases Nat.eq_zero_or_pos w with h | h
    · subst h; simp at hxAlt
    · exact h
  refine ⟨enumFrom_filterMap_numbers_lt (saB w blk) (runA w blk) (startsRaw w hgt blk) 0,
    enumFrom_filterMap_numbers_lt (sdB w blk) (runD w hgt blk) (startsRaw w hgt blk) 0,
    ?_, ?_, ?_, ?_⟩
  · rw [haE]
    show 1 ≤ 0 + kA + 1 ∧ 0 + kA + 1 ≤ (startsRaw w hgt blk).length
    omega
  · rw [hdE]
    show 1 ≤ 0 + kD + 1 ∧ 0 + kD + 1 ≤ (startsRaw w hgt blk).length
    omega
  · intro m h1 h2
    have hklt : m - 1 < (startsRaw w hgt blk).length := by omega
    have hget : (startsRaw w hgt blk)[m - 1]? = some ((startsRaw w hgt blk)[m - 1]) :=
      List.getElem?_eq_getElem hklt
    have hmem : (startsRaw w hgt blk)[m - 1] ∈ startsRaw w hgt blk :=
      List.getElem_mem hklt
    obtain ⟨_, _, hflags⟩ := startsRaw_mem_spec w hgt blk _ hmem
    rcases hflags with hfl | hfl
    · left
      refine List.mem_map.mpr ⟨⟨0 + (m - 1) + 1, [], runA w blk ((startsRaw w hgt blk)[m - 1])⟩,
        enumFrom_filterMap_mem (saB w blk) (runA w blk) (startsRaw w hgt blk) 0 (m - 1) _
          hget hfl, ?_⟩
      show 0 + (m - 1) + 1 = m
      omega
    · right
      refine List.mem_map.mpr ⟨⟨0 + (m - 1) + 1, [], runD w hgt blk ((startsRaw w hgt blk)[m - 1])⟩,
        enumFrom_filterMap_mem (sdB w blk) (runD w hgt blk) (startsRaw w hgt blk) 0 (m - 1) _
          hget hfl, ?_⟩
      show 0 + (m - 1) + 1 = m
      omega
  · intro hheads
    have hha : a.cells.head? = some xA := by
      rw [haE]
      exact runA_head w blk hw xA hxAb
    have hhd : d.cells.head? = some xD := by
      rw [hdE]
      exact runD_head w hgt blk hw xD hxDlt hxDb
    have hx : xA = xD := by
      rw [hha, hhd] at hheads
      exact Option.some.inj hheads
    subst hx
    have hkk : kA = kD :=
      List.getElem?_inj hkAlt (startsRaw_nodup w hgt blk) (by rw [hkA, hkD])
    rw [haE, hdE, hkk]

/-- Witness for C5 on the 2-by-2 one-block grid: entry numbers increase
and the second across entry's number is within range. -/
theorem numbering_sequential_shared_witness :
    ((acrossEntries 2 2 exBlk).map (fun e => e.number)).Pairwise (· < ·) ∧
    (1 ≤ (⟨2, [], [2, 3]⟩ : Entry).number ∧
      (⟨2, [], [2, 3]⟩ : Entry).number ≤ (startsRaw 2 2 exBlk).length) := by
  have h := numbering_sequential_shared 2 2 exBlk ⟨2, [], [2, 3]⟩ ⟨1, [], [0, 2]⟩
    (by decide) (by decide)
  exact ⟨h.1, h.2.2.1⟩

end TeamCrossword
